import Mathlib

/-!
Verification development for the stock-report repository.

The definitions below are shallow embeddings of the repository code:

* the workbook XML repair engine: `WorkbookProcessor.fix` in
  `src/processor.py` (row pruning plus the SORT array-formula rewrite of
  the "Sorted Raw" sheet), `update_excel_xml` in `src/fixer.py`, and the
  prune-only `StockReportEmail._fix_workbook` in `src/report.py`;
* the data-export pipeline of `src/export.py`: `_floor_timestamp`,
  `_bucket_data` (grouping, key filtering with anchored regex matching as
  in Python re.match, per-bucket aggregation with the numpy linear
  percentile), and the pagination loop of `export_to_excel`.

Machine state that the Python code mutates in place (ElementTree nodes,
dicts with insertion order, the file system) is modelled by explicit
functional data: rows and cells as structures, dicts as association lists
that update in place and append new keys at the end, the file system as a
map from path to package contents.
-/

/-! ## Generic helpers: removal by equality, insertion at an index -/

def removeFirst [DecidableEq α] : List α → α → List α
  | [], _ => []
  | x :: xs, a => if x = a then xs else x :: removeFirst xs a

def insertAt (i : Nat) (a : α) (xs : List α) : List α :=
  xs.take i ++ a :: xs.drop i

/-! ## XML model of one worksheet part

A formula element carries its text and the attributes the code sets
(`t` and `ref`); a cell carries its `r` attribute, at most one formula
element and at most one value element; a row carries its numeric `r`
attribute (absent attribute reads as 0 via `attrib.get("r", "0")`) and
its cells. -/

structure Formula where
  ftext : Option String
  tattr : Option String
  refattr : Option String
deriving DecidableEq, Repr

structure Cell where
  r : Option String
  f : Option Formula
  v : Option String
deriving DecidableEq, Repr

structure Row where
  idx : Option Nat
  cells : List Cell
deriving DecidableEq, Repr

structure Sheet where
  rows : List Row
deriving DecidableEq, Repr

/-- `int(row.attrib.get("r", "0"))`. -/
def rowNum (row : Row) : Nat := row.idx.getD 0

/-- Row pruning as written in `WorkbookProcessor.fix` (and in
`update_excel_xml` and `_fix_workbook`): first collect every row whose
declared index exceeds `num_data_rows + 1`, then remove each collected
row from the row container. -/
def pruneRows (n : Nat) (rows : List Row) : List Row :=
  (rows.filter (fun row => decide (rowNum row > n + 1))).foldl removeFirst rows

/-- The apostrophe character used by the SORT formula text. -/
def apos : String := String.singleton (Char.ofNat 39)

/-- The formula text written into A2 of the sorted sheet:
`_xlfn._xlws.SORT(<q>Raw Import<q>!A2:X{n+1},1,1)` with `<q>` the
apostrophe. -/
def sortFormula (n : Nat) : String :=
  "_xlfn._xlws.SORT(" ++ apos ++ "Raw Import" ++ apos ++ "!A2:X"
    ++ toString (n + 1) ++ ",1,1)"

/-- The declared array-formula range attribute `A2:X{n+1}`. -/
def refA2 (n : Nat) : String := "A2:X" ++ toString (n + 1)

/-- Mutation performed on the located A2 cell: the formula element is
created when absent, its text, `t="array"` and `ref` are set, and the
value element is created when absent and set to `"0"`. -/
def updateCellA2 (n : Nat) (c : Cell) : Cell :=
  { r := c.r
    f := some { ftext := some (sortFormula n), tattr := some "array", refattr := some (refA2 n) }
    v := some "0" }

/-- The freshly created A2 cell (creation path of `fix`). -/
def newCellA2 (n : Nat) : Cell :=
  { r := some "A2"
    f := some { ftext := some (sortFormula n), tattr := some "array", refattr := some (refA2 n) }
    v := some "0" }

def cellIsA2 (c : Cell) : Bool := c.r = some "A2"

/-- A row with `r="2"` attribute that contains a cell with `r="A2"`. -/
def rowHasA2 (row : Row) : Bool := row.idx = some 2 && row.cells.any cellIsA2

/-- Update the first cell with `r="A2"` in a cell list (the inner loop of
`fix` breaks at the first hit). -/
def updateFirstA2 (n : Nat) : List Cell → List Cell
  | [] => []
  | c :: rest => if cellIsA2 c then updateCellA2 n c :: rest else c :: updateFirstA2 n rest

/-- The A2 search loop of `WorkbookProcessor.fix`: the outer loop over
rows does not break, so the cell that ends up mutated is the first A2
cell of the last row (with `r="2"`) containing one; `none` when no such
row exists. -/
def updLast (n : Nat) : List Row → Option (List Row)
  | [] => none
  | row :: rest =>
    match updLast n rest with
    | some rest2 => some (row :: rest2)
    | none =>
      if rowHasA2 row then some ({ idx := row.idx, cells := updateFirstA2 n row.cells } :: rest)
      else none

/-- Creation path of `fix` when no A2 cell was found: the first row with
`r="2"` receives a new A2 cell appended to its children (`ET.SubElement`);
`none` when no row with `r="2"` exists. -/
def addA2 (n : Nat) : List Row → Option (List Row)
  | [] => none
  | row :: rest =>
    if row.idx = some 2 then some ({ idx := row.idx, cells := row.cells ++ [newCellA2 n] } :: rest)
    else (addA2 n rest).map (row :: ·)

/-- The "Sorted Raw" branch of `WorkbookProcessor.fix`: prune excess
rows, then locate or create cell A2 and write the SORT formula.  When
row 2 itself is absent, `ET.SubElement(sheet_data, ...)` appends the new
row at the end of the row container. -/
def fixSortedSheet (n : Nat) (s : Sheet) : Sheet :=
  let pruned := pruneRows n s.rows
  match updLast n pruned with
  | some rows2 => { rows := rows2 }
  | none =>
    match addA2 n pruned with
    | some rows2 => { rows := rows2 }
    | none => { rows := pruned ++ [{ idx := some 2, cells := [newCellA2 n] }] }

/-- Per-sheet action of `WorkbookProcessor.fix`: the SORT rewrite for
"Sorted Raw", plain pruning for every other processed sheet. -/
def fixSheet (n : Nat) (name : String) (s : Sheet) : Sheet :=
  if name = "Sorted Raw" then fixSortedSheet n s else { rows := pruneRows n s.rows }

/-! ## The sheet container of `update_excel_xml` (fixer.py)

There the creation path executes `sheet_data.insert(1, new_cell)`, adding
a cell element directly among the row children, so the children of
`sheetData` are modelled as a sum of rows and cells.  The A2 search uses
`root.findall(".//ns:c")`, i.e. every cell in the document, and updates
every hit (the loop has no break). -/

inductive XChild where
  | rowC (row : Row)
  | cellC (c : Cell)
deriving DecidableEq, Repr

def xchildExcess (n : Nat) : XChild → Bool
  | .rowC row => decide (rowNum row > n + 1)
  | .cellC _ => false

/-- Pruning in `update_excel_xml`: only row children are examined. -/
def fixerPrune (n : Nat) (ch : List XChild) : List XChild :=
  (ch.filter (xchildExcess n)).foldl removeFirst ch

def anyA2 (ch : List XChild) : Bool :=
  ch.any fun x =>
    match x with
    | .rowC row => row.cells.any cellIsA2
    | .cellC c => cellIsA2 c

/-- `update_excel_xml` updates every cell with `r="A2"` anywhere. -/
def updAllA2 (n : Nat) (ch : List XChild) : List XChild :=
  ch.map fun x =>
    match x with
    | .rowC row =>
        .rowC { idx := row.idx
                cells := row.cells.map (fun c => if cellIsA2 c then updateCellA2 n c else c) }
    | .cellC c => .cellC (if cellIsA2 c then updateCellA2 n c else c)

/-- All cells of the modelled document (loose cell children and cells
inside rows). -/
def cellsIn (ch : List XChild) : List Cell :=
  ch.foldr (fun x acc =>
    match x with
    | .rowC row => row.cells ++ acc
    | .cellC c => c :: acc) []

/-- The "Sorted Raw" branch of `update_excel_xml`: prune, then either
update every existing A2 cell or insert a fresh A2 cell at position 1 of
the row container (`sheet_data.insert(1, new_cell)`). -/
def fixerSorted (n : Nat) (ch : List XChild) : List XChild :=
  let pruned := fixerPrune n ch
  if anyA2 pruned then updAllA2 n pruned
  else insertAt 1 (.cellC (newCellA2 n)) pruned

/-! ## Package level drivers -/

structure Package where
  sheets : List (String × Sheet)
deriving DecidableEq, Repr

def lookupSheet (pkg : Package) (name : String) : Option Sheet :=
  (pkg.sheets.find? (fun e => e.1 = name)).map (·.2)

def updateSheetIn (pkg : Package) (name : String) (f : Sheet → Sheet) : Package :=
  { sheets := pkg.sheets.map (fun e => if e.1 = name then (e.1, f e.2) else e) }

/-- Sheets processed by `WorkbookProcessor.fix`. -/
def procSheets : List String := ["Sorted Raw", "Calibrated Values", "Bounded Calibrated"]

/-- Sheets processed by `StockReportEmail._fix_workbook`. -/
def reportSheets : List String := ["Calibrated Values", "Bounded Calibrated", "Empty Shelf Tracker"]

/-- `WorkbookProcessor.fix` over the resolved sheet mapping: a sheet name
absent from the mapping is skipped with a warning, a present one is
rewritten in place. -/
def fixPackage (n : Nat) (pkg : Package) : Package :=
  procSheets.foldl (fun acc name => updateSheetIn acc name (fixSheet n name)) pkg

/-- `StockReportEmail._fix_workbook`: prune-only, no formula branch. -/
def reportFixPackage (n : Nat) (pkg : Package) : Package :=
  reportSheets.foldl (fun acc name => updateSheetIn acc name (fun s => { rows := pruneRows n s.rows })) pkg

/-! ## File-store model for the repackaging step

`WorkbookProcessor.fix` extracts the input archive into a scratch
directory, mutates only the scratch copy and writes the repaired archive
to `wip_path.replace("_wip.xlsx", "_final.xlsx")`.  The file system is a
map from path to package contents; the only write the operation performs
targets the replaced path, and a missing input raises before any write. -/

def listStartsWith [DecidableEq α] : List α → List α → Bool
  | [], _ => true
  | _ :: _, [] => false
  | p :: ps, c :: cs => p = c && listStartsWith ps cs

/-- Python `str.replace`: replace every non-overlapping occurrence of
`pat` left to right. -/
def replaceAll (pat rep : List Char) : List Char → List Char
  | [] => []
  | c :: rest =>
    if h : pat ≠ [] ∧ listStartsWith pat (c :: rest) = true then
      rep ++ replaceAll pat rep ((c :: rest).drop pat.length)
    else
      c :: replaceAll pat rep rest
termination_by s => s.length
decreasing_by
  · simp only [List.length_drop, List.length_cons]
    have hp : 0 < pat.length := List.length_pos.mpr h.1
    omega
  · simp

/-- `final_path = wip_path.replace("_wip.xlsx", "_final.xlsx")`. -/
def finalPathOf (wip : String) : String :=
  String.mk (replaceAll "_wip.xlsx".data "_final.xlsx".data wip.data)

/-- The filesystem effect of `WorkbookProcessor.fix`: read the package at
`wip`, raise (no write at all) when it is absent, otherwise write the
repaired package to the `_final` path.  The boolean records success. -/
def fixOnStore (n : Nat) (st : String → Option Package) (wip : String) :
    (String → Option Package) × Bool :=
  match st wip with
  | none => (st, false)
  | some pkg => (fun k => if k = finalPathOf wip then some (fixPackage n pkg) else st k, true)

/-- `pat` occurs as a contiguous substring. -/
def occursIn (pat s : List Char) : Prop := ∃ a b, s = a ++ pat ++ b

/-! ## Regex model for the key filter

`export.py` compiles `include_keys_regex` with `re.compile` and tests
keys with `include_regex.match(key)`, Python matching anchored at
position 0.  The pattern language needed by the pipeline is covered by
the constructors below; `rxMatch` is the anchored-prefix matcher and
`rxExact` the whole-string matcher it scans with. -/

inductive Rx where
  | emp
  | eps
  | anyc
  | ch (c : Char)
  | alt (r s : Rx)
  | cat (r s : Rx)
  | star (r : Rx)
deriving DecidableEq, Repr

def rxNullable : Rx → Bool
  | .emp => false
  | .eps => true
  | .anyc => false
  | .ch _ => false
  | .alt r s => rxNullable r || rxNullable s
  | .cat r s => rxNullable r && rxNullable s
  | .star _ => true

def rxDeriv (r : Rx) (a : Char) : Rx :=
  match r with
  | .emp => .emp
  | .eps => .emp
  | .anyc => .eps
  | .ch c => if c = a then .eps else .emp
  | .alt r s => .alt (rxDeriv r a) (rxDeriv s a)
  | .cat r s =>
      if rxNullable r then .alt (.cat (rxDeriv r a) s) (rxDeriv s a)
      else .cat (rxDeriv r a) s
  | .star r => .cat (rxDeriv r a) (.star r)

/-- Whole-string match via derivatives. -/
def rxExact : Rx → List Char → Bool
  | r, [] => rxNullable r
  | r, c :: rest => rxExact (rxDeriv r c) rest

/-- Anchored match as in Python `re.match`: some prefix of the input is
in the language of `r`. -/
def rxMatch : Rx → List Char → Bool
  | r, [] => rxNullable r
  | r, c :: rest => rxNullable r || rxMatch (rxDeriv r c) rest

/-- Literal string as a regex. -/
def rxStr (s : List Char) : Rx := s.foldr (fun c acc => Rx.cat (Rx.ch c) acc) Rx.eps

/-- The deployed filter pattern `.*_raw`. -/
def dotStarRaw : Rx := Rx.cat (Rx.star Rx.anyc) (rxStr "_raw".data)

/-- `if include_regex and not include_regex.match(key): continue`. -/
def keepKey (rx : Option Rx) (key : String) : Bool :=
  match rx with
  | none => true
  | some r => rxMatch r key.data

/-! ## The bucketing pipeline of `_bucket_data` -/

/-- A raw record: the fields of one tabular-data row the pipeline uses
(`time_received` in exact integer time units, and the
`data["readings"]` mapping in document order). -/
structure RawRecord where
  time_received : Int
  readings : List (String × ℚ)
deriving DecidableEq, Repr

/-- `_floor_timestamp`: `epoch = 1970-01-01` (time 0),
`bucket_count = (ts - epoch) // bucket_td` (Python floor division of
exact durations), result `epoch + bucket_count * bucket_td`. -/
def floor_timestamp (ts bucket_td : Int) : Int :=
  let epoch : Int := 0
  let bucket_count := Int.fdiv (ts - epoch) bucket_td
  epoch + bucket_count * bucket_td

/-- Python-dict update: mutate the value at an existing key in place,
append a new key at the end. -/
def dictAppend [DecidableEq κ] : List (κ × β) → κ → (β → β) → β → List (κ × β)
  | [], k, f, d => [(k, f d)]
  | (a, b) :: rest, k, f, d =>
    if a = k then (a, f b) :: rest else (a, b) :: dictAppend rest k f d

/-- `bucketed_data[bucket][key].append(value)` with creation on demand. -/
def insertReading (inner : List (String × List ℚ)) (k : String) (v : ℚ) :
    List (String × List ℚ) :=
  dictAppend inner k (fun vs => vs ++ [v]) []

/-- The inner loop over `row["data"]["readings"].items()` with the key
filter applied. -/
def insertRow (rx : Option Rx) (inner : List (String × List ℚ)) :
    List (String × ℚ) → List (String × List ℚ)
  | [] => inner
  | (k, v) :: rest =>
      insertRow rx (if keepKey rx k then insertReading inner k v else inner) rest

/-- The grouping loop of `_bucket_data`: the bucket entry is created even
when every reading of the row is filtered out. -/
def bucketGroupsAux (rx : Option Rx) (p : Int)
    (acc : List (Int × List (String × List ℚ))) :
    List RawRecord → List (Int × List (String × List ℚ))
  | [] => acc
  | row :: rest =>
      bucketGroupsAux rx p
        (dictAppend acc (floor_timestamp row.time_received p)
          (fun inner => insertRow rx inner row.readings) [])
        rest

def bucketGroups (rx : Option Rx) (p : Int) (data : List RawRecord) :
    List (Int × List (String × List ℚ)) :=
  bucketGroupsAux rx p [] data

def listMax : List ℚ → ℚ
  | [] => 0
  | v :: rest => rest.foldl max v

def listMin : List ℚ → ℚ
  | [] => 0
  | v :: rest => rest.foldl min v

def insertSortedQ (v : ℚ) : List ℚ → List ℚ
  | [] => [v]
  | x :: xs => if v < x then v :: x :: xs else x :: insertSortedQ v xs

def sortQ (vs : List ℚ) : List ℚ := vs.foldl (fun acc v => insertSortedQ v acc) []

/-- `np.percentile(values, q)` with the default linear interpolation:
sort ascending, take position `q/100 * (n-1)`, interpolate between the
neighbouring order statistics. -/
def percentile (q : ℚ) (vs : List ℚ) : ℚ :=
  let sorted := sortQ vs
  let n := sorted.length
  if n = 0 then 0
  else
    let pos : ℚ := q * (n - 1) / 100
    let i : Nat := (⌊pos⌋).toNat
    let frac : ℚ := pos - (i : ℚ)
    let lo := sorted.getD i 0
    let hi := sorted.getD (min (i + 1) (n - 1)) 0
    lo + frac * (hi - lo)

/-- The aggregation branch ladder of `_bucket_data`; the final `else`
logs a warning and falls back to `max`. -/
def aggValue (method : String) (values : List ℚ) : ℚ :=
  if method = "max" then listMax values
  else if method = "min" then listMin values
  else if method = "avg" then values.sum / (values.length : ℚ)
  else if method = "first" then values.headD 0
  else if method = "last" then values.getLastD 0
  else if method = "pct95" then percentile 95 values
  else if method = "pct99" then percentile 99 values
  else listMax values

def insertSortedRec (r : RawRecord) : List RawRecord → List RawRecord
  | [] => [r]
  | x :: xs =>
      if r.time_received < x.time_received then r :: x :: xs else x :: insertSortedRec r xs

/-- `aggregated_data.sort(key=lambda x: x["time_received"])`: a stable
ascending sort. -/
def sortRecs (rs : List RawRecord) : List RawRecord :=
  rs.foldl (fun acc r => insertSortedRec r acc) []

/-- `_bucket_data`: group, aggregate per bucket and key, sort by bucket
start. -/
def bucketData (data : List RawRecord) (p : Int) (method : String) (rx : Option Rx) :
    List RawRecord :=
  let groups := bucketGroups rx p data
  let aggregated := groups.map (fun g =>
    { time_received := g.1
      readings := g.2.map (fun kv => (kv.1, aggValue method kv.2)) })
  sortRecs aggregated

/-! ## The pagination loop of `export_to_excel`

`skip` starts at 0 and always advances by the fixed `limit = 1000`; the
loop breaks on an empty page or on a page shorter than the limit.  The
second component records the offsets actually requested. -/

def fetchAll (client : Nat → List ℚ) : Nat → Nat → List ℚ × List Nat
  | 0, _ => ([], [])
  | fuel + 1, skip =>
    let batch := client skip
    if batch.length = 0 then ([], [skip])
    else if batch.length < 1000 then (batch, [skip])
    else
      let rest := fetchAll client fuel (skip + 1000)
      (batch ++ rest.1, skip :: rest.2)

/-! ## Vocabulary used by the statements -/

/-- The per-entry effect of the three-sheet loop of
`WorkbookProcessor.fix` on the sheet mapping. -/
def sheetTransform (n : Nat) (name : String) (s : Sheet) : Sheet :=
  if name ∈ procSheets then fixSheet n name s else s

/-- The per-entry effect of the loop of `_fix_workbook`. -/
def reportTransform (n : Nat) (name : String) (s : Sheet) : Sheet :=
  if name ∈ reportSheets then { rows := pruneRows n s.rows } else s

/-- The key occurs in a bucket-to-values association list. -/
def hasKeyVals (inner : List (String × List ℚ)) (key : String) : Prop :=
  ∃ vs, (key, vs) ∈ inner

/-- The key occurs in some bucket of the grouped data. -/
def groupsHaveKey (gs : List (Int × List (String × List ℚ))) (key : String) : Prop :=
  ∃ e, e ∈ gs ∧ hasKeyVals e.2 key

/-- The key occurs in the readings of some record of the list. -/
def keyInRecords (rs : List RawRecord) (key : String) : Prop :=
  ∃ r, r ∈ rs ∧ ∃ v, (key, v) ∈ r.readings

/-- The concrete five-record input of the aggregation test: one reading
`x_raw` per record, values 10..50, at minutes 0..4 of one 5-minute
bucket (times in seconds). -/
def c5data : List RawRecord :=
  [{ time_received := 0, readings := [("x_raw", 10)] },
   { time_received := 60, readings := [("x_raw", 20)] },
   { time_received := 120, readings := [("x_raw", 30)] },
   { time_received := 180, readings := [("x_raw", 40)] },
   { time_received := 240, readings := [("x_raw", 50)] }]

/-! ## Lemmas on removal and pruning -/

theorem foldl_removeFirst_cons [DecidableEq α] (x : α) :
    ∀ (es xs : List α), (∀ e ∈ es, e ≠ x) →
      List.foldl removeFirst (x :: xs) es = x :: List.foldl removeFirst xs es := by
  intro es
  induction es with
  | nil => intro xs _; rfl
  | cons e es ih =>
    intro xs h
    have hne : ¬ x = e := fun hxe => (h e (by simp)) hxe.symm
    simp only [List.foldl_cons, removeFirst, if_neg hne]
    exact ih (removeFirst xs e) (fun a ha => h a (by simp [ha]))

theorem foldl_removeFirst_filter [DecidableEq α] (p : α → Bool) :
    ∀ rows : List α,
      List.foldl removeFirst rows (rows.filter p) = rows.filter (fun a => !(p a)) := by
  intro rows
  induction rows with
  | nil => rfl
  | cons x rest ih =>
    by_cases hp : p x = true
    · rw [List.filter_cons_of_pos hp, List.filter_cons_of_neg (by simp [hp]),
        List.foldl_cons]
      have h1 : removeFirst (x :: rest) x = rest := by simp [removeFirst]
      rw [h1, ih]
    · have hp2 : p x = false := by revert hp; cases p x <;> simp
      rw [List.filter_cons_of_neg (by simp [hp2]), List.filter_cons_of_pos (by simp [hp2])]
      have hne : ∀ e ∈ rest.filter p, e ≠ x := by
        intro e he hex
        have := List.of_mem_filter he
        rw [hex] at this
        simp [hp2] at this
      rw [foldl_removeFirst_cons x (rest.filter p) rest hne, ih]

theorem pruneRows_eq_filter (n : Nat) (rows : List Row) :
    pruneRows n rows = rows.filter (fun row => decide (rowNum row ≤ n + 1)) := by
  unfold pruneRows
  rw [foldl_removeFirst_filter]
  apply List.filter_congr
  intro row _
  rw [← decide_not]
  exact decide_eq_decide.mpr (by omega)

theorem mem_pruneRows (n : Nat) (rows : List Row) (row : Row) :
    row ∈ pruneRows n rows ↔ row ∈ rows ∧ rowNum row ≤ n + 1 := by
  rw [pruneRows_eq_filter]
  simp [List.mem_filter]

theorem pruneRows_sublist (n : Nat) (rows : List Row) :
    (pruneRows n rows).Sublist rows := by
  rw [pruneRows_eq_filter]; exact List.filter_sublist rows

theorem pruneRows_eq_self (n : Nat) (rows : List Row)
    (h : ∀ row ∈ rows, rowNum row ≤ n + 1) : pruneRows n rows = rows := by
  rw [pruneRows_eq_filter]
  apply List.filter_eq_self.mpr
  intro row hr
  simpa using h row hr

theorem pruneRows_bound (n : Nat) (rows : List Row) :
    ∀ row ∈ pruneRows n rows, rowNum row ≤ n + 1 := by
  intro row hr
  exact ((mem_pruneRows n rows row).mp hr).2

theorem pruneRows_idem (n : Nat) (rows : List Row) :
    pruneRows n (pruneRows n rows) = pruneRows n rows :=
  pruneRows_eq_self n _ (pruneRows_bound n rows)

theorem pruneRows_append (n : Nat) (xs ys : List Row) :
    pruneRows n (xs ++ ys) = pruneRows n xs ++ pruneRows n ys := by
  simp [pruneRows_eq_filter, List.filter_append]

theorem fixerPrune_eq_filter (n : Nat) (ch : List XChild) :
    fixerPrune n ch = ch.filter (fun x => !(xchildExcess n x)) := by
  unfold fixerPrune
  rw [foldl_removeFirst_filter]

/-! ## Lemmas on the package-level sheet mapping -/

theorem lookupSheet_updateSheetIn (pkg : Package) (name name2 : String) (f : Sheet → Sheet) :
    lookupSheet (updateSheetIn pkg name f) name2 =
      if name2 = name then (lookupSheet pkg name2).map f else lookupSheet pkg name2 := by
  obtain ⟨sheets⟩ := pkg
  simp only [lookupSheet, updateSheetIn]
  induction sheets with
  | nil => simp
  | cons e rest ih =>
    have hkey : (if e.1 = name then (e.1, f e.2) else e).1 = e.1 := by
      by_cases h1 : e.1 = name <;> simp [h1]
    simp only [List.map_cons]
    by_cases h2 : e.1 = name2
    · have hf1 : List.find? (fun x => decide (x.1 = name2))
          ((if e.1 = name then (e.1, f e.2) else e) :: rest.map (fun x =>
            if x.1 = name then (x.1, f x.2) else x)) =
          some (if e.1 = name then (e.1, f e.2) else e) :=
        List.find?_cons_of_pos _ (by rw [hkey]; exact decide_eq_true h2)
      have hf2 : List.find? (fun x => decide (x.1 = name2)) (e :: rest) = some e :=
        List.find?_cons_of_pos _ (decide_eq_true h2)
      rw [hf1, hf2]
      by_cases h1 : e.1 = name
      · have hnn : name2 = name := by rw [← h2, h1]
        simp [h1, hnn]
      · have hnn : ¬ name2 = name := by rw [← h2]; exact fun hc => h1 hc
        simp [h1, hnn]
    · have hf1 : List.find? (fun x => decide (x.1 = name2))
          ((if e.1 = name then (e.1, f e.2) else e) :: rest.map (fun x =>
            if x.1 = name then (x.1, f x.2) else x)) =
          List.find? (fun x => decide (x.1 = name2)) (rest.map (fun x =>
            if x.1 = name then (x.1, f x.2) else x)) :=
        List.find?_cons_of_neg _ (by rw [hkey]; simp [h2])
      have hf2 : List.find? (fun x => decide (x.1 = name2)) (e :: rest) =
          List.find? (fun x => decide (x.1 = name2)) rest :=
        List.find?_cons_of_neg _ (by simp [h2])
      rw [hf1, hf2]
      exact ih

theorem reportFixPackage_unfold (n : Nat) (pkg : Package) :
    reportFixPackage n pkg =
      updateSheetIn (updateSheetIn (updateSheetIn pkg "Calibrated Values"
        (fun s => { rows := pruneRows n s.rows })) "Bounded Calibrated"
        (fun s => { rows := pruneRows n s.rows })) "Empty Shelf Tracker"
        (fun s => { rows := pruneRows n s.rows }) := rfl

theorem fixPackage_unfold (n : Nat) (pkg : Package) :
    fixPackage n pkg =
      updateSheetIn (updateSheetIn (updateSheetIn pkg "Sorted Raw"
        (fixSheet n "Sorted Raw")) "Calibrated Values"
        (fixSheet n "Calibrated Values")) "Bounded Calibrated"
        (fixSheet n "Bounded Calibrated") := rfl

theorem lookupSheet_reportFixPackage (n : Nat) (pkg : Package) (name : String) :
    lookupSheet (reportFixPackage n pkg) name =
      if name ∈ reportSheets then (lookupSheet pkg name).map
        (fun s => { rows := pruneRows n s.rows }) else lookupSheet pkg name := by
  rw [reportFixPackage_unfold]
  rw [lookupSheet_updateSheetIn, lookupSheet_updateSheetIn, lookupSheet_updateSheetIn]
  have dCB : ("Calibrated Values" : String) ≠ "Bounded Calibrated" := by decide
  have dCE : ("Calibrated Values" : String) ≠ "Empty Shelf Tracker" := by decide
  have dBE : ("Bounded Calibrated" : String) ≠ "Empty Shelf Tracker" := by decide
  by_cases h1 : name = "Calibrated Values"
  · subst h1; simp [reportSheets, dCB, dCE]
  · by_cases h2 : name = "Bounded Calibrated"
    · subst h2; simp [reportSheets, dCB.symm, dBE]
    · by_cases h3 : name = "Empty Shelf Tracker"
      · subst h3; simp [reportSheets, dCE.symm, dBE.symm]
      · have hnm : ¬ (name ∈ reportSheets) := by simp [reportSheets, h1, h2, h3]
        simp [h1, h2, h3, hnm]

theorem lookupSheet_fixPackage (n : Nat) (pkg : Package) (name : String) :
    lookupSheet (fixPackage n pkg) name =
      if name ∈ procSheets then (lookupSheet pkg name).map (fixSheet n name)
      else lookupSheet pkg name := by
  rw [fixPackage_unfold]
  rw [lookupSheet_updateSheetIn, lookupSheet_updateSheetIn, lookupSheet_updateSheetIn]
  have dSC : ("Sorted Raw" : String) ≠ "Calibrated Values" := by decide
  have dSB : ("Sorted Raw" : String) ≠ "Bounded Calibrated" := by decide
  have dCB : ("Calibrated Values" : String) ≠ "Bounded Calibrated" := by decide
  by_cases h1 : name = "Sorted Raw"
  · subst h1; simp [procSheets, dSC, dSB]
  · by_cases h2 : name = "Calibrated Values"
    · subst h2; simp [procSheets, dSC.symm, dCB]
    · by_cases h3 : name = "Bounded Calibrated"
      · subst h3; simp [procSheets, dSB.symm, dCB.symm]
      · have hnm : ¬ (name ∈ procSheets) := by simp [procSheets, h1, h2, h3]
        simp [h1, h2, h3, hnm]

/-- C2: for every sheet in the prune list present in the resolved sheet
mapping, repair removes exactly the rows whose declared index exceeds
`numDataRows + 1`; rows with index at most `numDataRows + 1` (sparse or
not) survive unchanged and in order. -/
theorem prune_removes_exactly_excess_rows :
    ∀ (n : Nat) (rows : List Row) (pkg : Package),
      pruneRows n rows = rows.filter (fun row => decide (rowNum row ≤ n + 1))
      ∧ (∀ row, row ∈ pruneRows n rows ↔ row ∈ rows ∧ rowNum row ≤ n + 1)
      ∧ (pruneRows n rows).Sublist rows
      ∧ (∀ name s, name ∈ reportSheets → lookupSheet pkg name = some s →
          lookupSheet (reportFixPackage n pkg) name = some { rows := pruneRows n s.rows })
      ∧ (∀ name s, name ∈ procSheets → name ≠ "Sorted Raw" → lookupSheet pkg name = some s →
          lookupSheet (fixPackage n pkg) name = some { rows := pruneRows n s.rows }) := by
  intro n rows pkg
  refine ⟨pruneRows_eq_filter n rows, mem_pruneRows n rows, pruneRows_sublist n rows, ?_, ?_⟩
  · intro name s hmem hs
    rw [lookupSheet_reportFixPackage, if_pos hmem, hs]
    rfl
  · intro name s hmem hne hs
    rw [lookupSheet_fixPackage, if_pos hmem, hs]
    simp [fixSheet, hne]

/-- Witness for C2 at a concrete package: a sheet with sparse rows 1, 5,
3 pruned with `numDataRows = 2` keeps exactly rows 1 and 3. -/
theorem prune_removes_exactly_excess_rows_witness :
    lookupSheet (reportFixPackage 2 (Package.mk
        [("Calibrated Values", Sheet.mk
          [{ idx := some 1, cells := [] }, { idx := some 5, cells := [] },
           { idx := some 3, cells := [] }])])) "Calibrated Values" =
      some (Sheet.mk [{ idx := some 1, cells := [] }, { idx := some 3, cells := [] }]) := by
  have h := (prune_removes_exactly_excess_rows 2
    [{ idx := some 1, cells := [] }, { idx := some 5, cells := [] },
     { idx := some 3, cells := [] }]
    (Package.mk [("Calibrated Values", Sheet.mk
      [{ idx := some 1, cells := [] }, { idx := some 5, cells := [] },
       { idx := some 3, cells := [] }])])).2.2.2.1 "Calibrated Values"
    (Sheet.mk [{ idx := some 1, cells := [] }, { idx := some 5, cells := [] },
      { idx := some 3, cells := [] }]) (by decide) (by decide)
  exact h.trans (by decide)

/-- C9: a prune-list sheet name absent from the resolved mapping is
skipped without error: the repair still completes, the missing name
stays absent, every other present listed sheet is pruned exactly, and
unlisted sheets are untouched. -/
theorem missing_sheet_is_skipped :
    ∀ (n : Nat) (pkg : Package),
      lookupSheet pkg "Empty Shelf Tracker" = none →
      lookupSheet (reportFixPackage n pkg) "Empty Shelf Tracker" = none
      ∧ (∀ name s, name ∈ reportSheets → lookupSheet pkg name = some s →
          lookupSheet (reportFixPackage n pkg) name = some { rows := pruneRows n s.rows })
      ∧ (∀ name, name ∉ reportSheets →
          lookupSheet (reportFixPackage n pkg) name = lookupSheet pkg name)
      ∧ (lookupSheet pkg "Sorted Raw" = none →
          ∀ name s, name ∈ procSheets → lookupSheet pkg name = some s →
            lookupSheet (fixPackage n pkg) name = some (fixSheet n name s)) := by
  intro n pkg hnone
  refine ⟨?_, ?_, ?_, ?_⟩
  · rw [lookupSheet_reportFixPackage, if_pos (by decide : ("Empty Shelf Tracker" : String) ∈ reportSheets), hnone]
    rfl
  · intro name s hmem hs
    rw [lookupSheet_reportFixPackage, if_pos hmem, hs]
    rfl
  · intro name hnm
    rw [lookupSheet_reportFixPackage, if_neg hnm]
  · intro _ name s hmem hs
    rw [lookupSheet_fixPackage, if_pos hmem, hs]
    rfl

/-- Witness for C9: a package whose mapping lacks "Empty Shelf Tracker"
is repaired without error and its present listed sheet is still pruned. -/
theorem missing_sheet_is_skipped_witness :
    lookupSheet (reportFixPackage 1 (Package.mk
        [("Calibrated Values", Sheet.mk
          [{ idx := some 1, cells := [] }, { idx := some 9, cells := [] }]),
         ("Raw Import", Sheet.mk [{ idx := some 7, cells := [] }])]))
      "Empty Shelf Tracker" = none
    ∧ lookupSheet (reportFixPackage 1 (Package.mk
        [("Calibrated Values", Sheet.mk
          [{ idx := some 1, cells := [] }, { idx := some 9, cells := [] }]),
         ("Raw Import", Sheet.mk [{ idx := some 7, cells := [] }])]))
      "Calibrated Values" = some (Sheet.mk [{ idx := some 1, cells := [] }]) := by
  refine ⟨(missing_sheet_is_skipped 1 _ (by decide)).1, ?_⟩
  have h := (missing_sheet_is_skipped 1 (Package.mk
      [("Calibrated Values", Sheet.mk
        [{ idx := some 1, cells := [] }, { idx := some 9, cells := [] }]),
       ("Raw Import", Sheet.mk [{ idx := some 7, cells := [] }])]) (by decide)).2.1
    "Calibrated Values"
    (Sheet.mk [{ idx := some 1, cells := [] }, { idx := some 9, cells := [] }])
    (by decide) (by decide)
  exact h.trans (by decide)

/-! ## Idempotence of the sorted-sheet rewrite -/

theorem updateCellA2_idem (n : Nat) (c : Cell) :
    updateCellA2 n (updateCellA2 n c) = updateCellA2 n c := rfl

theorem cellIsA2_updateCellA2 (n : Nat) (c : Cell) :
    cellIsA2 (updateCellA2 n c) = cellIsA2 c := rfl

theorem cellIsA2_newCellA2 (n : Nat) : cellIsA2 (newCellA2 n) = true := by
  simp [cellIsA2, newCellA2]

theorem updateCellA2_newCellA2 (n : Nat) :
    updateCellA2 n (newCellA2 n) = newCellA2 n := rfl

theorem updateFirstA2_idem (n : Nat) :
    ∀ cells : List Cell, updateFirstA2 n (updateFirstA2 n cells) = updateFirstA2 n cells := by
  intro cells
  induction cells with
  | nil => rfl
  | cons c rest ih =>
    by_cases hc : cellIsA2 c = true
    · simp only [updateFirstA2, if_pos hc, cellIsA2_updateCellA2, updateCellA2_idem]
    · simp only [updateFirstA2, if_neg hc, ih]

theorem any_updateFirstA2 (n : Nat) :
    ∀ cells : List Cell, (updateFirstA2 n cells).any cellIsA2 = cells.any cellIsA2 := by
  intro cells
  induction cells with
  | nil => rfl
  | cons c rest ih =>
    by_cases hc : cellIsA2 c = true
    · simp [updateFirstA2, if_pos hc, cellIsA2_updateCellA2, hc]
    · simp only [updateFirstA2, if_neg hc, List.any_cons, ih]

theorem updateFirstA2_append_new (n : Nat) (cells : List Cell)
    (h : cells.any cellIsA2 = false) :
    updateFirstA2 n (cells ++ [newCellA2 n]) = cells ++ [newCellA2 n] := by
  induction cells with
  | nil =>
    simp only [List.nil_append, updateFirstA2, cellIsA2_newCellA2, if_pos,
      updateCellA2_newCellA2]
  | cons c rest ih =>
    simp only [List.any_cons, Bool.or_eq_false_iff] at h
    simp only [List.cons_append, updateFirstA2, if_neg (by simp [h.1] : ¬ cellIsA2 c = true)]
    exact congrArg (c :: ·) (ih h.2)

theorem updLast_map_idx (n : Nat) :
    ∀ rows rows2 : List Row, updLast n rows = some rows2 →
      rows2.map Row.idx = rows.map Row.idx := by
  intro rows
  induction rows with
  | nil => intro rows2 h; simp [updLast] at h
  | cons row rest ih =>
    intro rows2 h
    rw [updLast] at h
    cases hrest : updLast n rest with
    | some rest2 =>
      rw [hrest] at h
      cases h
      simp [ih rest2 hrest]
    | none =>
      rw [hrest] at h
      by_cases hA2 : rowHasA2 row = true
      · rw [if_pos hA2] at h
        cases h
        simp
      · rw [if_neg hA2] at h
        cases h

theorem updLast_idem (n : Nat) :
    ∀ rows rows2 : List Row, updLast n rows = some rows2 →
      updLast n rows2 = some rows2 := by
  intro rows
  induction rows with
  | nil => intro rows2 h; simp [updLast] at h
  | cons row rest ih =>
    intro rows2 h
    rw [updLast] at h
    cases hrest : updLast n rest with
    | some rest2 =>
      rw [hrest] at h
      cases h
      rw [updLast, ih rest2 hrest]
    | none =>
      rw [hrest] at h
      by_cases hA2 : rowHasA2 row = true
      · rw [if_pos hA2] at h
        cases h
        rw [updLast, hrest]
        have hA2b : rowHasA2 { idx := row.idx, cells := updateFirstA2 n row.cells } = true := by
          unfold rowHasA2 at hA2 ⊢
          simp only [Bool.and_eq_true] at hA2 ⊢
          exact ⟨hA2.1, by rw [any_updateFirstA2]; exact hA2.2⟩
        rw [if_pos hA2b, updateFirstA2_idem]
      · rw [if_neg hA2] at h
        cases h

theorem updLast_cons_none (n : Nat) (row : Row) (rest : List Row)
    (h : updLast n (row :: rest) = none) :
    updLast n rest = none ∧ rowHasA2 row = false := by
  rw [updLast] at h
  cases hrest : updLast n rest with
  | some rest2 => rw [hrest] at h; cases h
  | none =>
    rw [hrest] at h
    by_cases hA2 : rowHasA2 row = true
    · rw [if_pos hA2] at h; cases h
    · exact ⟨rfl, by revert hA2; cases rowHasA2 row <;> simp⟩

theorem addA2_map_idx (n : Nat) :
    ∀ rows rows2 : List Row, addA2 n rows = some rows2 →
      rows2.map Row.idx = rows.map Row.idx := by
  intro rows
  induction rows with
  | nil => intro rows2 h; simp [addA2] at h
  | cons row rest ih =>
    intro rows2 h
    rw [addA2] at h
    by_cases h2 : row.idx = some 2
    · rw [if_pos h2] at h
      cases h
      simp
    · rw [if_neg h2] at h
      cases hrest : addA2 n rest with
      | some rest2 =>
        rw [hrest] at h
        simp only [Option.map] at h
        cases h
        simp [ih rest2 hrest]
      | none => rw [hrest] at h; cases h

theorem addA2_idem (n : Nat) :
    ∀ rows rows2 : List Row, updLast n rows = none → addA2 n rows = some rows2 →
      updLast n rows2 = some rows2 := by
  intro rows
  induction rows with
  | nil => intro rows2 _ h; simp [addA2] at h
  | cons row rest ih =>
    intro rows2 hnone h
    obtain ⟨hrestnone, hrowno⟩ := updLast_cons_none n row rest hnone
    rw [addA2] at h
    by_cases h2 : row.idx = some 2
    · rw [if_pos h2] at h
      cases h
      have hnoA2 : row.cells.any cellIsA2 = false := by
        unfold rowHasA2 at hrowno
        simp only [Bool.and_eq_false_iff] at hrowno
        rcases hrowno with hi | ha
        · exfalso; rw [h2] at hi; simp at hi
        · exact ha
      rw [updLast, hrestnone]
      have hA2b : rowHasA2 { idx := row.idx, cells := row.cells ++ [newCellA2 n] } = true := by
        unfold rowHasA2
        simp only [Bool.and_eq_true]
        refine ⟨by rw [h2]; simp, ?_⟩
        rw [List.any_append]
        simp [cellIsA2_newCellA2]
      rw [if_pos hA2b]
      simp only [Option.some.injEq, List.cons.injEq, and_true]
      rw [updateFirstA2_append_new n row.cells hnoA2]
    · rw [if_neg h2] at h
      cases hrest : addA2 n rest with
      | some rest2 =>
        rw [hrest] at h
        simp only [Option.map] at h
        cases h
        rw [updLast, ih rest2 hrestnone hrest]
      | none => rw [hrest] at h; cases h

theorem updLast_append_a2 (n : Nat) (y : Row) (hy : rowHasA2 y = true) :
    ∀ xs : List Row, updLast n (xs ++ [y]) =
      some (xs ++ [{ idx := y.idx, cells := updateFirstA2 n y.cells }]) := by
  intro xs
  induction xs with
  | nil =>
    simp only [List.nil_append]
    rw [updLast]
    rw [show updLast n ([] : List Row) = none from rfl]
    rw [if_pos hy]
  | cons x rest ih =>
    simp only [List.cons_append]
    rw [updLast, ih]

theorem updLast_none_of_no_a2 (n : Nat) :
    ∀ rows : List Row, (∀ row ∈ rows, rowHasA2 row = false) →
      updLast n rows = none := by
  intro rows
  induction rows with
  | nil => intro _; rfl
  | cons row rest ih =>
    intro h
    rw [updLast, ih (fun r hr => h r (by simp [hr]))]
    rw [if_neg (by simp [h row (by simp)])]

theorem addA2_none_of_no_row2 (n : Nat) :
    ∀ rows : List Row, (∀ row ∈ rows, row.idx ≠ some 2) →
      addA2 n rows = none := by
  intro rows
  induction rows with
  | nil => intro _; rfl
  | cons row rest ih =>
    intro h
    rw [addA2, if_neg (h row (by simp)), ih (fun r hr => h r (by simp [hr]))]
    rfl

theorem rowNum_from_map (n : Nat) (rows rows2 : List Row)
    (hmap : rows2.map Row.idx = rows.map Row.idx)
    (hb : ∀ row ∈ rows, rowNum row ≤ n + 1) :
    ∀ row ∈ rows2, rowNum row ≤ n + 1 := by
  intro row hr
  have hm : row.idx ∈ rows2.map Row.idx := List.mem_map_of_mem Row.idx hr
  rw [hmap] at hm
  obtain ⟨r0, hr0, hidx⟩ := List.mem_map.mp hm
  have hb0 := hb r0 hr0
  unfold rowNum at hb0 ⊢
  rw [← hidx]
  exact hb0

theorem fixSortedSheet_idem (n : Nat) (s : Sheet) :
    fixSortedSheet n (fixSortedSheet n s) = fixSortedSheet n s := by
  have hb : ∀ row ∈ pruneRows n s.rows, rowNum row ≤ n + 1 := pruneRows_bound n s.rows
  cases h1 : updLast n (pruneRows n s.rows) with
  | some rows2 =>
    have e1 : fixSortedSheet n s = { rows := rows2 } := by
      simp only [fixSortedSheet]
      rw [h1]
    rw [e1]
    have hb2 := rowNum_from_map n _ rows2 (updLast_map_idx n _ rows2 h1) hb
    have e2 : pruneRows n rows2 = rows2 := pruneRows_eq_self n rows2 hb2
    simp only [fixSortedSheet]
    rw [e2, updLast_idem n _ rows2 h1]
  | none =>
    cases h2 : addA2 n (pruneRows n s.rows) with
    | some rows2 =>
      have e1 : fixSortedSheet n s = { rows := rows2 } := by
        simp only [fixSortedSheet]
        rw [h1, h2]
      rw [e1]
      have hb2 := rowNum_from_map n _ rows2 (addA2_map_idx n _ rows2 h2) hb
      have e2 : pruneRows n rows2 = rows2 := pruneRows_eq_self n rows2 hb2
      simp only [fixSortedSheet]
      rw [e2, addA2_idem n _ rows2 h1 h2]
    | none =>
      have e1 : fixSortedSheet n s =
          { rows := pruneRows n s.rows ++ [{ idx := some 2, cells := [newCellA2 n] }] } := by
        simp only [fixSortedSheet]
        rw [h1, h2]
      rw [e1]
      simp only [fixSortedSheet]
      rw [pruneRows_append, pruneRows_eq_self n _ hb]
      by_cases hn : 2 ≤ n + 1
      · have hkeep : pruneRows n [{ idx := some 2, cells := [newCellA2 n] }] =
            [{ idx := some 2, cells := [newCellA2 n] }] := by
          apply pruneRows_eq_self
          intro row hr
          simp only [List.mem_singleton] at hr
          subst hr
          simpa [rowNum] using hn
        rw [hkeep]
        have hy : rowHasA2 { idx := some 2, cells := [newCellA2 n] } = true := by
          unfold rowHasA2
          simp [cellIsA2_newCellA2]
        rw [updLast_append_a2 n _ hy]
        have hu : updateFirstA2 n [newCellA2 n] = [newCellA2 n] := by
          simp only [updateFirstA2, cellIsA2_newCellA2, if_pos, updateCellA2_newCellA2]
        simp [hu]
      · have hdrop : pruneRows n [{ idx := some 2, cells := [newCellA2 n] }] = [] := by
          rw [pruneRows_eq_filter]
          simp only [List.filter_cons, List.filter_nil]
          rw [if_neg (by simp [rowNum]; omega)]
        rw [hdrop, List.append_nil, h1, h2]

theorem fixSheet_idem (n : Nat) (name : String) (s : Sheet) :
    fixSheet n name (fixSheet n name s) = fixSheet n name s := by
  by_cases h : name = "Sorted Raw"
  · simp [fixSheet, h, fixSortedSheet_idem]
  · simp [fixSheet, h, pruneRows_idem]

theorem sheetTransform_idem (n : Nat) (name : String) (s : Sheet) :
    sheetTransform n name (sheetTransform n name s) = sheetTransform n name s := by
  by_cases hmem : name ∈ procSheets
  · simp [sheetTransform, hmem, fixSheet_idem]
  · simp [sheetTransform, hmem]

theorem reportTransform_idem (n : Nat) (name : String) (s : Sheet) :
    reportTransform n name (reportTransform n name s) = reportTransform n name s := by
  by_cases hmem : name ∈ reportSheets
  · simp [reportTransform, hmem, pruneRows_idem]
  · simp [reportTransform, hmem]

theorem fixPackage_eq_map (n : Nat) (pkg : Package) :
    fixPackage n pkg =
      { sheets := pkg.sheets.map (fun e => (e.1, sheetTransform n e.1 e.2)) } := by
  rw [fixPackage_unfold]
  simp only [updateSheetIn, List.map_map]
  apply congrArg Package.mk
  apply List.map_congr_left
  intro e _
  have dSC : ("Sorted Raw" : String) ≠ "Calibrated Values" := by decide
  have dSB : ("Sorted Raw" : String) ≠ "Bounded Calibrated" := by decide
  have dCB : ("Calibrated Values" : String) ≠ "Bounded Calibrated" := by decide
  by_cases h1 : e.1 = "Sorted Raw"
  · simp [Function.comp, h1, dSC, dSB, sheetTransform, procSheets]
  · by_cases h2 : e.1 = "Calibrated Values"
    · simp [Function.comp, h1, h2, dCB, sheetTransform, procSheets]
    · by_cases h3 : e.1 = "Bounded Calibrated"
      · simp [Function.comp, h1, h2, h3, sheetTransform, procSheets]
      · simp [Function.comp, h1, h2, h3, sheetTransform, procSheets]

theorem reportFixPackage_eq_map (n : Nat) (pkg : Package) :
    reportFixPackage n pkg =
      { sheets := pkg.sheets.map (fun e => (e.1, reportTransform n e.1 e.2)) } := by
  rw [reportFixPackage_unfold]
  simp only [updateSheetIn, List.map_map]
  apply congrArg Package.mk
  apply List.map_congr_left
  intro e _
  have dCB : ("Calibrated Values" : String) ≠ "Bounded Calibrated" := by decide
  have dCE : ("Calibrated Values" : String) ≠ "Empty Shelf Tracker" := by decide
  have dBE : ("Bounded Calibrated" : String) ≠ "Empty Shelf Tracker" := by decide
  by_cases h1 : e.1 = "Calibrated Values"
  · simp [Function.comp, h1, dCB, dCE, reportTransform, reportSheets]
  · by_cases h2 : e.1 = "Bounded Calibrated"
    · simp [Function.comp, h1, h2, dBE, reportTransform, reportSheets]
    · by_cases h3 : e.1 = "Empty Shelf Tracker"
      · simp [Function.comp, h1, h2, h3, reportTransform, reportSheets]
      · simp [Function.comp, h1, h2, h3, reportTransform, reportSheets]

/-- C3: repair is idempotent.  Repeating `WorkbookProcessor.fix` (and the
prune-only `_fix_workbook`) with the same `numDataRows` on the
already-repaired package reproduces the same sheet XML exactly: no
further rows disappear and the SORT formula cell is unchanged. -/
theorem repair_is_idempotent :
    ∀ (n : Nat) (pkg : Package) (s : Sheet) (rows : List Row),
      fixPackage n (fixPackage n pkg) = fixPackage n pkg
      ∧ reportFixPackage n (reportFixPackage n pkg) = reportFixPackage n pkg
      ∧ fixSortedSheet n (fixSortedSheet n s) = fixSortedSheet n s
      ∧ pruneRows n (pruneRows n rows) = pruneRows n rows := by
  intro n pkg s rows
  refine ⟨?_, ?_, fixSortedSheet_idem n s, pruneRows_idem n rows⟩
  · rw [fixPackage_eq_map, fixPackage_eq_map]
    apply congrArg Package.mk
    simp only [List.map_map]
    apply List.map_congr_left
    intro e _
    simp [Function.comp, sheetTransform_idem]
  · rw [reportFixPackage_eq_map, reportFixPackage_eq_map]
    apply congrArg Package.mk
    simp only [List.map_map]
    apply List.map_congr_left
    intro e _
    simp [Function.comp, reportTransform_idem]

/-! ## The anchor cell after the sorted-sheet rewrite -/

theorem cellIsA2_eq (c : Cell) (h : cellIsA2 c = true) : c.r = some "A2" :=
  of_decide_eq_true h

theorem updateFirstA2_exists (n : Nat) :
    ∀ cells : List Cell, cells.any cellIsA2 = true →
      ∃ c, c ∈ updateFirstA2 n cells ∧ c.r = some "A2"
        ∧ c.f = some ⟨some (sortFormula n), some "array", some (refA2 n)⟩
        ∧ c.v = some "0" := by
  intro cells
  induction cells with
  | nil => intro h; simp at h
  | cons c rest ih =>
    intro h
    by_cases hc : cellIsA2 c = true
    · refine ⟨updateCellA2 n c, ?_, ?_, rfl, rfl⟩
      · simp [updateFirstA2, if_pos hc]
      · exact cellIsA2_eq c hc
    · simp only [List.any_cons, Bool.or_eq_true] at h
      rcases h with h | h
      · exact absurd h hc
      · obtain ⟨c2, hmem, hprops⟩ := ih h
        exact ⟨c2, by simp [updateFirstA2, if_neg hc, hmem], hprops⟩

theorem updLast_exists (n : Nat) :
    ∀ rows rows2 : List Row, updLast n rows = some rows2 →
      ∃ row, row ∈ rows2 ∧ ∃ c, c ∈ row.cells ∧ c.r = some "A2"
        ∧ c.f = some ⟨some (sortFormula n), some "array", some (refA2 n)⟩
        ∧ c.v = some "0" := by
  intro rows
  induction rows with
  | nil => intro rows2 h; simp [updLast] at h
  | cons row rest ih =>
    intro rows2 h
    rw [updLast] at h
    cases hrest : updLast n rest with
    | some rest2 =>
      rw [hrest] at h
      cases h
      obtain ⟨r2, hr2, hc⟩ := ih rest2 hrest
      exact ⟨r2, by simp [hr2], hc⟩
    | none =>
      rw [hrest] at h
      by_cases hA2 : rowHasA2 row = true
      · rw [if_pos hA2] at h
        cases h
        have hany : row.cells.any cellIsA2 = true := by
          unfold rowHasA2 at hA2
          exact (Bool.and_eq_true _ _ |>.mp hA2).2
        obtain ⟨c, hc, hprops⟩ := updateFirstA2_exists n row.cells hany
        exact ⟨{ idx := row.idx, cells := updateFirstA2 n row.cells }, by simp, c, hc, hprops⟩
      · rw [if_neg hA2] at h
        cases h

theorem addA2_exists (n : Nat) :
    ∀ rows rows2 : List Row, addA2 n rows = some rows2 →
      ∃ row, row ∈ rows2 ∧ newCellA2 n ∈ row.cells := by
  intro rows
  induction rows with
  | nil => intro rows2 h; simp [addA2] at h
  | cons row rest ih =>
    intro rows2 h
    rw [addA2] at h
    by_cases h2 : row.idx = some 2
    · rw [if_pos h2] at h
      cases h
      exact ⟨{ idx := row.idx, cells := row.cells ++ [newCellA2 n] }, by simp, by simp⟩
    · rw [if_neg h2] at h
      cases hrest : addA2 n rest with
      | some rest2 =>
        rw [hrest] at h
        simp only [Option.map] at h
        cases h
        obtain ⟨r2, hr2, hc⟩ := ih rest2 hrest
        exact ⟨r2, by simp [hr2], hc⟩
      | none => rw [hrest] at h; cases h

theorem cellsIn_append (xs ys : List XChild) :
    cellsIn (xs ++ ys) = cellsIn xs ++ cellsIn ys := by
  induction xs with
  | nil => rfl
  | cons x rest ih =>
    cases x with
    | rowC row =>
      show row.cells ++ cellsIn (rest ++ ys) = (row.cells ++ cellsIn rest) ++ cellsIn ys
      rw [ih, List.append_assoc]
    | cellC c =>
      show c :: cellsIn (rest ++ ys) = (c :: cellsIn rest) ++ cellsIn ys
      rw [ih]
      rfl

theorem cellsIn_updAllA2_exists (n : Nat) :
    ∀ ch : List XChild, anyA2 ch = true →
      ∃ c, c ∈ cellsIn (updAllA2 n ch) ∧ c.r = some "A2"
        ∧ c.f = some ⟨some (sortFormula n), some "array", some (refA2 n)⟩
        ∧ c.v = some "0" := by
  intro ch
  induction ch with
  | nil => intro h; simp [anyA2] at h
  | cons x rest ih =>
    intro h
    unfold anyA2 at h
    rw [List.any_cons] at h
    rcases Bool.or_eq_true _ _ |>.mp h with hx | hrest
    · cases x with
      | rowC row =>
        simp only at hx
        obtain ⟨c0, hc0, hA2⟩ := List.any_eq_true.mp hx
        refine ⟨updateCellA2 n c0, ?_, cellIsA2_eq c0 hA2, rfl, rfl⟩
        show updateCellA2 n c0 ∈ cellsIn (updAllA2 n (XChild.rowC row :: rest))
        have : cellsIn (updAllA2 n (XChild.rowC row :: rest)) =
            (row.cells.map (fun c => if cellIsA2 c then updateCellA2 n c else c))
              ++ cellsIn (updAllA2 n rest) := rfl
        rw [this]
        apply List.mem_append_left
        rw [show updateCellA2 n c0 = (fun c => if cellIsA2 c then updateCellA2 n c else c) c0 by
          simp [hA2]]
        exact List.mem_map_of_mem _ hc0
      | cellC c =>
        simp only at hx
        refine ⟨updateCellA2 n c, ?_, cellIsA2_eq c hx, rfl, rfl⟩
        show updateCellA2 n c ∈ cellsIn (updAllA2 n (XChild.cellC c :: rest))
        have : cellsIn (updAllA2 n (XChild.cellC c :: rest)) =
            (if cellIsA2 c then updateCellA2 n c else c) :: cellsIn (updAllA2 n rest) := rfl
        rw [this, if_pos hx]
        exact List.mem_cons_self _ _
    · obtain ⟨c2, hmem, hprops⟩ := ih hrest
      refine ⟨c2, ?_, hprops⟩
      cases x with
      | rowC row =>
        have : cellsIn (updAllA2 n (XChild.rowC row :: rest)) =
            (row.cells.map (fun c => if cellIsA2 c then updateCellA2 n c else c))
              ++ cellsIn (updAllA2 n rest) := rfl
        rw [this]
        exact List.mem_append_right _ hmem
      | cellC c =>
        have : cellsIn (updAllA2 n (XChild.cellC c :: rest)) =
            (if cellIsA2 c then updateCellA2 n c else c) :: cellsIn (updAllA2 n rest) := rfl
        rw [this]
        exact List.mem_cons_of_mem _ hmem

theorem newCellA2_props (n : Nat) :
    (newCellA2 n).r = some "A2"
    ∧ (newCellA2 n).f = some ⟨some (sortFormula n), some "array", some (refA2 n)⟩
    ∧ (newCellA2 n).v = some "0" := ⟨rfl, rfl, rfl⟩

/-- C1 counterexample: with `numDataRows = 2` and a sorted sheet holding
rows 1 and 3 but no row 2, `WorkbookProcessor.fix` creates the anchor
row and appends it as the LAST child of the row container; the second
child of the result is the pre-existing row 3, not the created row. -/
theorem fix_appends_created_row_at_end :
    fixSortedSheet 2 { rows := [{ idx := some 1, cells := [] },
        { idx := some 3, cells := [] }] } =
      { rows := [{ idx := some 1, cells := [] }, { idx := some 3, cells := [] },
        { idx := some 2, cells := [newCellA2 2] }] }
    ∧ (fixSortedSheet 2 { rows := [{ idx := some 1, cells := [] },
        { idx := some 3, cells := [] }] }).rows.get? 1 =
      some { idx := some 3, cells := [] }
    ∧ ({ idx := some 3, cells := [] } : Row) ≠ { idx := some 2, cells := [newCellA2 2] } := by
  refine ⟨by decide, by decide, by decide⟩

/-- C1 (amended): after repair with data-row count `n`, the sorted sheet
holds an anchor cell `A2` whose formula text, array ref and placeholder
value are as specified, in both `WorkbookProcessor.fix` and
`update_excel_xml`.  When the anchor must be created because it is
absent, `update_excel_xml` inserts the new cell as the second child of
the row container, while `WorkbookProcessor.fix` appends the newly
created row 2 at the end of the row container. -/
theorem sorted_anchor_formula_and_creation :
    ∀ (n : Nat) (s : Sheet) (ch : List XChild),
      (∃ row, row ∈ (fixSortedSheet n s).rows ∧ ∃ c, c ∈ row.cells ∧ c.r = some "A2"
        ∧ c.f = some ⟨some (sortFormula n), some "array", some (refA2 n)⟩
        ∧ c.v = some "0")
      ∧ (∃ c, c ∈ cellsIn (fixerSorted n ch) ∧ c.r = some "A2"
        ∧ c.f = some ⟨some (sortFormula n), some "array", some (refA2 n)⟩
        ∧ c.v = some "0")
      ∧ ((∀ row ∈ pruneRows n s.rows, row.idx ≠ some 2) →
          (fixSortedSheet n s).rows =
            pruneRows n s.rows ++ [{ idx := some 2, cells := [newCellA2 n] }])
      ∧ (anyA2 (fixerPrune n ch) = false →
          fixerSorted n ch = insertAt 1 (XChild.cellC (newCellA2 n)) (fixerPrune n ch)
          ∧ ∀ y ys, fixerPrune n ch = y :: ys →
              fixerSorted n ch = y :: XChild.cellC (newCellA2 n) :: ys) := by
  intro n s ch
  refine ⟨?_, ?_, ?_, ?_⟩
  · cases h1 : updLast n (pruneRows n s.rows) with
    | some rows2 =>
      have e1 : fixSortedSheet n s = { rows := rows2 } := by
        simp only [fixSortedSheet]; rw [h1]
      rw [e1]
      exact updLast_exists n _ rows2 h1
    | none =>
      cases h2 : addA2 n (pruneRows n s.rows) with
      | some rows2 =>
        have e1 : fixSortedSheet n s = { rows := rows2 } := by
          simp only [fixSortedSheet]; rw [h1, h2]
        rw [e1]
        obtain ⟨row, hrow, hc⟩ := addA2_exists n _ rows2 h2
        exact ⟨row, hrow, newCellA2 n, hc, rfl, rfl, rfl⟩
      | none =>
        have e1 : fixSortedSheet n s =
            { rows := pruneRows n s.rows ++ [{ idx := some 2, cells := [newCellA2 n] }] } := by
          simp only [fixSortedSheet]; rw [h1, h2]
        rw [e1]
        refine ⟨{ idx := some 2, cells := [newCellA2 n] }, ?_, newCellA2 n, by simp, rfl, rfl, rfl⟩
        simp
  · unfold fixerSorted
    by_cases hA2 : anyA2 (fixerPrune n ch) = true
    · rw [if_pos hA2]
      exact cellsIn_updAllA2_exists n _ hA2
    · rw [if_neg hA2]
      refine ⟨newCellA2 n, ?_, rfl, rfl, rfl⟩
      unfold insertAt
      rw [cellsIn_append]
      apply List.mem_append_right
      show newCellA2 n ∈ cellsIn (XChild.cellC (newCellA2 n) :: _)
      exact List.mem_cons_self _ _
  · intro hno2
    have h1 : updLast n (pruneRows n s.rows) = none := by
      apply updLast_none_of_no_a2
      intro row hr
      unfold rowHasA2
      rw [Bool.and_eq_false_iff]
      left
      simp [hno2 row hr]
    have h2 : addA2 n (pruneRows n s.rows) = none := addA2_none_of_no_row2 n _ hno2
    simp only [fixSortedSheet]
    rw [h1, h2]
  · intro hA2
    have hif : fixerSorted n ch = insertAt 1 (XChild.cellC (newCellA2 n)) (fixerPrune n ch) := by
      unfold fixerSorted
      rw [if_neg (by simp [hA2])]
    refine ⟨hif, ?_⟩
    intro y ys hys
    rw [hif, hys]
    rfl

/-- Witness for the amended C1 at concrete inputs exercising both
creation paths. -/
theorem sorted_anchor_formula_and_creation_witness :
    (fixSortedSheet 2 { rows := [{ idx := some 1, cells := [] },
        { idx := some 3, cells := [] }] }).rows =
      pruneRows 2 [{ idx := some 1, cells := [] }, { idx := some 3, cells := [] }]
        ++ [{ idx := some 2, cells := [newCellA2 2] }]
    ∧ fixerSorted 2 [XChild.rowC { idx := some 1, cells := [] }] =
      [XChild.rowC { idx := some 1, cells := [] }, XChild.cellC (newCellA2 2)] := by
  constructor
  · exact (sorted_anchor_formula_and_creation 2
      { rows := [{ idx := some 1, cells := [] }, { idx := some 3, cells := [] }] }
      []).2.2.1 (by decide)
  · exact ((sorted_anchor_formula_and_creation 2 { rows := [] }
      [XChild.rowC { idx := some 1, cells := [] }]).2.2.2 (by decide)).2
      (XChild.rowC { idx := some 1, cells := [] }) [] (by decide)

/-! ## Lemmas on grouping, keys and ordering of the bucket pipeline -/

theorem dictAppend_map_fst [DecidableEq κ] (k : κ) (f : β → β) (d : β) :
    ∀ xs : List (κ × β),
      (dictAppend xs k f d).map Prod.fst =
        if k ∈ xs.map Prod.fst then xs.map Prod.fst else xs.map Prod.fst ++ [k] := by
  intro xs
  induction xs with
  | nil => simp [dictAppend]
  | cons e rest ih =>
    obtain ⟨a, b⟩ := e
    by_cases hak : a = k
    · subst hak
      simp [dictAppend]
    · rw [show dictAppend ((a, b) :: rest) k f d = (a, b) :: dictAppend rest k f d by
        simp [dictAppend, hak]]
      simp only [List.map_cons]
      rw [ih]
      by_cases hmem : k ∈ rest.map Prod.fst
      · rw [if_pos hmem, if_pos (by simp [hmem])]
      · have hka : k ∉ a :: rest.map Prod.fst := by
          simp only [List.mem_cons]
          rintro (h | h)
          · exact hak h.symm
          · exact hmem h
        rw [if_neg hmem, if_neg hka]
        simp

theorem mem_map_fst_dictAppend [DecidableEq κ] (k k2 : κ) (f : β → β) (d : β)
    (xs : List (κ × β)) :
    k2 ∈ (dictAppend xs k f d).map Prod.fst ↔ k2 ∈ xs.map Prod.fst ∨ k2 = k := by
  rw [dictAppend_map_fst]
  by_cases hmem : k ∈ xs.map Prod.fst
  · rw [if_pos hmem]
    constructor
    · exact Or.inl
    · rintro (h | h)
      · exact h
      · rw [h]; exact hmem
  · rw [if_neg hmem]
    simp

theorem nodup_dictAppend [DecidableEq κ] (k : κ) (f : β → β) (d : β)
    (xs : List (κ × β)) (h : (xs.map Prod.fst).Nodup) :
    ((dictAppend xs k f d).map Prod.fst).Nodup := by
  rw [dictAppend_map_fst]
  by_cases hmem : k ∈ xs.map Prod.fst
  · rw [if_pos hmem]; exact h
  · rw [if_neg hmem]
    rw [show xs.map Prod.fst ++ [k] = (xs.map Prod.fst).concat k from (List.concat_eq_append _ _).symm]
    exact h.concat hmem

theorem bucketGroupsAux_keys_nodup (rx : Option Rx) (p : Int) :
    ∀ (rows : List RawRecord) (acc : List (Int × List (String × List ℚ))),
      (acc.map Prod.fst).Nodup → ((bucketGroupsAux rx p acc rows).map Prod.fst).Nodup := by
  intro rows
  induction rows with
  | nil => intro acc h; exact h
  | cons row rest ih =>
    intro acc h
    exact ih _ (nodup_dictAppend _ _ _ acc h)

theorem mem_bucketGroupsAux_keys (rx : Option Rx) (p : Int) (k : Int) :
    ∀ (rows : List RawRecord) (acc : List (Int × List (String × List ℚ))),
      k ∈ (bucketGroupsAux rx p acc rows).map Prod.fst ↔
        k ∈ acc.map Prod.fst ∨ ∃ r ∈ rows, floor_timestamp r.time_received p = k := by
  intro rows
  induction rows with
  | nil => intro acc; simp [bucketGroupsAux]
  | cons row rest ih =>
    intro acc
    rw [show bucketGroupsAux rx p acc (row :: rest) =
      bucketGroupsAux rx p (dictAppend acc (floor_timestamp row.time_received p)
        (fun inner => insertRow rx inner row.readings) []) rest from rfl]
    rw [ih]
    rw [mem_map_fst_dictAppend]
    constructor
    · rintro ((h | h) | h)
      · exact Or.inl h
      · exact Or.inr ⟨row, by simp, h.symm⟩
      · obtain ⟨r, hr, hf⟩ := h
        exact Or.inr ⟨r, by simp [hr], hf⟩
    · rintro (h | h)
      · exact Or.inl (Or.inl h)
      · obtain ⟨r, hr, hf⟩ := h
        rcases List.mem_cons.mp hr with hre | hre
        · subst hre
          exact Or.inl (Or.inr hf.symm)
        · exact Or.inr ⟨r, hre, hf⟩

theorem insertSortedRec_perm (r : RawRecord) :
    ∀ xs : List RawRecord, (insertSortedRec r xs).Perm (r :: xs) := by
  intro xs
  induction xs with
  | nil => exact List.Perm.refl _
  | cons x rest ih =>
    rw [insertSortedRec]
    by_cases hlt : r.time_received < x.time_received
    · rw [if_pos hlt]
    · rw [if_neg hlt]
      exact (List.Perm.cons x ih).trans (List.Perm.swap r x rest)

theorem foldl_insertSortedRec_perm :
    ∀ (rs acc : List RawRecord),
      (rs.foldl (fun a r => insertSortedRec r a) acc).Perm (rs ++ acc) := by
  intro rs
  induction rs with
  | nil => intro acc; exact List.Perm.refl _
  | cons r rest ih =>
    intro acc
    rw [List.foldl_cons, List.cons_append]
    have h1 := ih (insertSortedRec r acc)
    have h2 : (rest ++ insertSortedRec r acc).Perm (rest ++ r :: acc) :=
      List.Perm.append_left rest (insertSortedRec_perm r acc)
    have h3 : (rest ++ r :: acc).Perm (r :: (rest ++ acc)) := List.perm_middle
    exact h1.trans (h2.trans h3)

theorem sortRecs_perm (rs : List RawRecord) : (sortRecs rs).Perm rs := by
  have h := foldl_insertSortedRec_perm rs []
  rw [List.append_nil] at h
  exact h

/-- C4: bucket assignment is the exact floor
`epoch + floor((t - epoch) / period) * period` in integer arithmetic:
the assigned bucket is the unique multiple of the period lying at most
`period` below the timestamp, records with equal `time_received` share a
bucket, and the number of produced buckets equals the number of distinct
floor-aligned period starts in the input. -/
theorem bucket_floor_exact :
    ∀ p : Int, 0 < p →
      ∀ (data : List RawRecord) (method : String) (rx : Option Rx),
        (∀ t : Int, floor_timestamp t p ≤ t ∧ t < floor_timestamp t p + p
          ∧ p ∣ floor_timestamp t p)
        ∧ (∀ r1 r2 : RawRecord, r1.time_received = r2.time_received →
            floor_timestamp r1.time_received p = floor_timestamp r2.time_received p)
        ∧ (bucketData data p method rx).length =
            ((data.map (fun r => floor_timestamp r.time_received p)).toFinset).card := by
  intro p hp data method rx
  refine ⟨?_, ?_, ?_⟩
  · intro t
    have hf : floor_timestamp t p = t / p * p := by
      unfold floor_timestamp
      simp only [sub_zero, zero_add]
      rw [Int.fdiv_eq_ediv _ (le_of_lt hp)]
    have he : t / p * p = t - t % p := by
      rw [Int.emod_def]
      ring
    have hn := Int.emod_nonneg t (ne_of_gt hp)
    have hl := Int.emod_lt_of_pos t hp
    refine ⟨by rw [hf, he]; omega, by rw [hf, he]; omega, ?_⟩
    rw [hf]
    exact ⟨t / p, mul_comm (t / p) p⟩
  · intro r1 r2 h
    rw [h]
  · unfold bucketData
    rw [(sortRecs_perm _).length_eq, List.length_map]
    have hlen : (bucketGroups rx p data).length =
        ((bucketGroups rx p data).map Prod.fst).length := (List.length_map _ _).symm
    rw [hlen]
    have hnd : ((bucketGroups rx p data).map Prod.fst).Nodup :=
      bucketGroupsAux_keys_nodup rx p data [] (by simp)
    rw [← List.toFinset_card_of_nodup hnd]
    congr 1
    apply Finset.ext
    intro k
    rw [List.mem_toFinset, List.mem_toFinset]
    rw [show bucketGroups rx p data = bucketGroupsAux rx p [] data from rfl,
      mem_bucketGroupsAux_keys]
    simp [List.mem_map]

/-- Witness for C4 at period 300 and the concrete five-record input. -/
theorem bucket_floor_exact_witness :
    (floor_timestamp 450 300 ≤ 450 ∧ (450 : Int) < floor_timestamp 450 300 + 300
      ∧ (300 : Int) ∣ floor_timestamp 450 300)
    ∧ (bucketData c5data 300 "pct99" none).length =
        ((c5data.map (fun r => floor_timestamp r.time_received 300)).toFinset).card := by
  constructor
  · exact (bucket_floor_exact 300 (by norm_num) c5data "pct99" none).1 450
  · exact (bucket_floor_exact 300 (by norm_num) c5data "pct99" none).2.2


theorem bucketData_c5data (m : String) :
    bucketData c5data 300 m none =
      [{ time_received := 0, readings := [("x_raw", aggValue m [10, 20, 30, 40, 50])] }] := rfl

theorem sortQ_c5 : sortQ [10, 20, 30, 40, 50] = [10, 20, 30, 40, 50] := by
  norm_num [sortQ, insertSortedQ]

/-- C5: aggregating one 5-minute bucket with `x_raw` values
`[10, 20, 30, 40, 50]` (arrival order = time order) yields exactly one
output row per method: avg 30, max 50, first 10 (earliest arrival, not
minimum), last 50, and the linear-interpolation percentiles
pct95 = 40 + 0.8 * (50 - 40) = 48 and pct99 = 40 + 0.96 * (50 - 40)
= 49.6 = 248/5. -/
theorem aggregation_concrete_bucket :
    bucketData c5data 300 "avg" none =
      [{ time_received := 0, readings := [("x_raw", 30)] }]
    ∧ bucketData c5data 300 "max" none =
      [{ time_received := 0, readings := [("x_raw", 50)] }]
    ∧ bucketData c5data 300 "first" none =
      [{ time_received := 0, readings := [("x_raw", 10)] }]
    ∧ bucketData c5data 300 "last" none =
      [{ time_received := 0, readings := [("x_raw", 50)] }]
    ∧ bucketData c5data 300 "pct95" none =
      [{ time_received := 0, readings := [("x_raw", 48)] }]
    ∧ bucketData c5data 300 "pct99" none =
      [{ time_received := 0, readings := [("x_raw", 248 / 5)] }] := by
  refine ⟨?_, ?_, ?_, ?_, ?_, ?_⟩
  · rw [bucketData_c5data]
    have hv : aggValue "avg" [10, 20, 30, 40, 50] = 30 := by
      unfold aggValue
      rw [if_neg (by decide), if_neg (by decide), if_pos rfl]
      norm_num
    rw [hv]
  · rw [bucketData_c5data]
    have hv : aggValue "max" [10, 20, 30, 40, 50] = 50 := by
      unfold aggValue
      rw [if_pos rfl]
      norm_num [listMax]
    rw [hv]
  · rw [bucketData_c5data]
    have hv : aggValue "first" [10, 20, 30, 40, 50] = 10 := by
      unfold aggValue
      rw [if_neg (by decide), if_neg (by decide), if_neg (by decide), if_pos rfl]
      rfl
    rw [hv]
  · rw [bucketData_c5data]
    have hv : aggValue "last" [10, 20, 30, 40, 50] = 50 := by
      unfold aggValue
      rw [if_neg (by decide), if_neg (by decide), if_neg (by decide), if_neg (by decide),
        if_pos rfl]
      rfl
    rw [hv]
  · rw [bucketData_c5data]
    have hv : aggValue "pct95" [10, 20, 30, 40, 50] = 48 := by
      unfold aggValue
      rw [if_neg (by decide), if_neg (by decide), if_neg (by decide), if_neg (by decide),
        if_neg (by decide), if_pos rfl]
      unfold percentile
      rw [sortQ_c5]
      norm_num
      have h3 : (3 : ℤ).toNat = 3 := rfl
      simp only [h3]
      norm_num [List.getD]
    rw [hv]
  · rw [bucketData_c5data]
    have hv : aggValue "pct99" [10, 20, 30, 40, 50] = 248 / 5 := by
      unfold aggValue
      rw [if_neg (by decide), if_neg (by decide), if_neg (by decide), if_neg (by decide),
        if_neg (by decide), if_neg (by decide), if_pos rfl]
      unfold percentile
      rw [sortQ_c5]
      norm_num
      have h3 : (3 : ℤ).toNat = 3 := rfl
      simp only [h3]
      norm_num [List.getD]
    rw [hv]

/-- C8: an aggregation method outside the supported seven returns
exactly the result of method `max` on the same input, both for one value
list and for the whole bucketed output; the embedded aggregation is
total, so the condition surfaces as the logged warning only and never as
an exception. -/
theorem unknown_method_falls_back_to_max :
    ∀ method : String,
      method ∉ (["min", "max", "avg", "first", "last", "pct95", "pct99"] : List String) →
      (∀ values : List ℚ, aggValue method values = aggValue "max" values)
      ∧ (∀ (data : List RawRecord) (p : Int) (rx : Option Rx),
          bucketData data p method rx = bucketData data p "max" rx) := by
  intro method h
  simp only [List.mem_cons, List.not_mem_nil, or_false, not_or] at h
  obtain ⟨h1, h2, h3, h4, h5, h6, h7⟩ := h
  have hval : ∀ values : List ℚ, aggValue method values = aggValue "max" values := by
    intro values
    unfold aggValue
    rw [if_neg h2, if_neg h1, if_neg h3, if_neg h4, if_neg h5, if_neg h6, if_neg h7,
      if_pos rfl]
  refine ⟨hval, ?_⟩
  intro data p rx
  unfold bucketData
  apply congrArg sortRecs
  apply List.map_congr_left
  intro g _
  congr 1
  apply List.map_congr_left
  intro kv _
  rw [hval]

/-- Witness for C8 with the unsupported method string "median". -/
theorem unknown_method_falls_back_to_max_witness :
    aggValue "median" [10, 50, 30] = aggValue "max" [10, 50, 30]
    ∧ bucketData c5data 300 "median" none = bucketData c5data 300 "max" none := by
  exact ⟨(unknown_method_falls_back_to_max "median" (by decide)).1 _,
    (unknown_method_falls_back_to_max "median" (by decide)).2 c5data 300 none⟩

/-- C6: the pagination loop requests offsets 0, 1000, 2000, ... with
fixed page size 1000, appends every returned page, and stops exactly at
the first empty or short page: three full pages followed by an empty one
yield 3000 records with requests at offsets 0, 1000, 2000, 3000 and no
fifth request; three pages whose third is short yield all records of the
three pages with no fourth request. -/
theorem pagination_boundary :
    ∀ (client : Nat → List ℚ) (fuel : Nat), 4 ≤ fuel →
      ((client 0).length = 1000 → (client 1000).length = 1000 →
        (client 2000).length = 1000 → (client 3000).length = 0 →
          fetchAll client fuel 0 =
            (client 0 ++ (client 1000 ++ client 2000), [0, 1000, 2000, 3000])
          ∧ (client 0 ++ (client 1000 ++ client 2000)).length = 3 * 1000)
      ∧ ((client 0).length = 1000 → (client 1000).length = 1000 →
          (client 2000).length < 1000 →
          fetchAll client fuel 0 = (client 0 ++ (client 1000 ++ client 2000), [0, 1000, 2000])) := by
  intro client fuel hf
  obtain ⟨k, rfl⟩ : ∃ k, fuel = k + 1 + 1 + 1 + 1 := ⟨fuel - 4, by omega⟩
  constructor
  · intro h0 h1 h2 h3
    refine ⟨?_, by simp [h0, h1, h2]⟩
    simp only [fetchAll, h0, h1, h2, h3]
    norm_num
  · intro h0 h1 h2
    by_cases hz : (client 2000).length = 0
    · have hnil : client 2000 = [] := List.length_eq_zero.mp hz
      simp only [fetchAll, h0, h1, hz]
      norm_num
      simp [hnil]
    · have hne : client 2000 ≠ [] := fun hc => hz (by simp [hc])
      simp only [fetchAll, h0, h1]
      norm_num
      rw [if_neg hne, if_pos h2]
      exact ⟨rfl, rfl⟩

/-- Witness for C6 with two fake clients: three full pages then an empty
page, and two full pages then a short page. -/
theorem pagination_boundary_witness :
    fetchAll (fun s => if s < 3000 then List.replicate 1000 (0 : ℚ) else []) 5 0 =
      (List.replicate 3000 (0 : ℚ), [0, 1000, 2000, 3000])
    ∧ fetchAll (fun s => if s < 2000 then List.replicate 1000 (0 : ℚ)
        else List.replicate 700 (0 : ℚ)) 5 0 =
      (List.replicate 2700 (0 : ℚ), [0, 1000, 2000]) := by
  constructor
  · have h := (pagination_boundary
      (fun s => if s < 3000 then List.replicate 1000 (0 : ℚ) else []) 5
      (by norm_num)).1 (by norm_num) (by norm_num) (by norm_num) (by norm_num)
    rw [h.1]
    norm_num
  · have h := (pagination_boundary
      (fun s => if s < 2000 then List.replicate 1000 (0 : ℚ)
        else List.replicate 700 (0 : ℚ)) 5
      (by norm_num)).2 (by norm_num) (by norm_num) (by norm_num)
    rw [h]
    norm_num

/-! ## Key propagation through grouping and the anchored regex -/

theorem exists_val_iff_mem_fst (xs : List (κ × β)) (k2 : κ) :
    (∃ b, (k2, b) ∈ xs) ↔ k2 ∈ xs.map Prod.fst := by
  constructor
  · rintro ⟨b, hb⟩
    exact List.mem_map_of_mem Prod.fst hb
  · intro h
    obtain ⟨⟨a, b⟩, he, hfst⟩ := List.mem_map.mp h
    cases hfst
    exact ⟨b, he⟩

theorem exists_mem_dictAppend [DecidableEq κ] (k k2 : κ) (f : β → β) (d : β)
    (xs : List (κ × β)) :
    (∃ b, (k2, b) ∈ dictAppend xs k f d) ↔ (∃ b, (k2, b) ∈ xs) ∨ k2 = k := by
  rw [exists_val_iff_mem_fst, exists_val_iff_mem_fst, mem_map_fst_dictAppend]

theorem hasKeyVals_insertReading (inner : List (String × List ℚ)) (k key : String) (v : ℚ) :
    hasKeyVals (insertReading inner k v) key ↔ hasKeyVals inner key ∨ key = k :=
  exists_mem_dictAppend k key _ [] inner

theorem hasKeyVals_insertRow (rx : Option Rx) (key : String) :
    ∀ (rs : List (String × ℚ)) (inner : List (String × List ℚ)),
      hasKeyVals (insertRow rx inner rs) key ↔
        hasKeyVals inner key ∨ (keepKey rx key = true ∧ ∃ v, (key, v) ∈ rs) := by
  intro rs
  induction rs with
  | nil =>
    intro inner
    simp [insertRow]
  | cons kv rest ih =>
    obtain ⟨k, v⟩ := kv
    intro inner
    rw [show insertRow rx inner ((k, v) :: rest) =
      insertRow rx (if keepKey rx k then insertReading inner k v else inner) rest from rfl]
    rw [ih]
    by_cases hkey : key = k
    · subst hkey
      by_cases hk : keepKey rx key = true
      · rw [if_pos hk, hasKeyVals_insertReading]
        constructor
        · rintro ((h | h) | h)
          · exact Or.inl h
          · exact Or.inr ⟨hk, v, by simp⟩
          · exact Or.inr ⟨hk, v, by simp⟩
        · rintro (h | h)
          · exact Or.inl (Or.inl h)
          · exact Or.inl (Or.inr rfl)
      · rw [if_neg hk]
        constructor
        · rintro (h | ⟨hkeep, _⟩)
          · exact Or.inl h
          · exact absurd hkeep hk
        · rintro (h | ⟨hkeep, _⟩)
          · exact Or.inl h
          · exact absurd hkeep hk
    · have hmemiff : (∃ v2 : ℚ, (key, v2) ∈ (k, v) :: rest) ↔ ∃ v2, (key, v2) ∈ rest := by
        constructor
        · rintro ⟨v2, hv2⟩
          rcases List.mem_cons.mp hv2 with h1 | h2
          · exact absurd (congrArg Prod.fst h1) hkey
          · exact ⟨v2, h2⟩
        · rintro ⟨v2, hv2⟩
          exact ⟨v2, List.mem_cons_of_mem _ hv2⟩
      rw [hmemiff]
      by_cases hk : keepKey rx k = true
      · rw [if_pos hk, hasKeyVals_insertReading]
        constructor
        · rintro ((h | h) | h)
          · exact Or.inl h
          · exact absurd h hkey
          · exact Or.inr h
        · rintro (h | h)
          · exact Or.inl (Or.inl h)
          · exact Or.inr h
      · rw [if_neg hk]

theorem groupsHaveKey_cons (e : Int × List (String × List ℚ))
    (rest : List (Int × List (String × List ℚ))) (key : String) :
    groupsHaveKey (e :: rest) key ↔ hasKeyVals e.2 key ∨ groupsHaveKey rest key := by
  constructor
  · rintro ⟨e2, he2, hk⟩
    rcases List.mem_cons.mp he2 with h1 | h2
    · exact Or.inl (h1 ▸ hk)
    · exact Or.inr ⟨e2, h2, hk⟩
  · rintro (h | ⟨e2, he2, hk⟩)
    · exact ⟨e, List.mem_cons_self _ _, h⟩
    · exact ⟨e2, List.mem_cons_of_mem _ he2, hk⟩

theorem groupsHaveKey_dictAppend (b : Int) (rs : List (String × ℚ)) (key : String)
    (rx : Option Rx) :
    ∀ gs : List (Int × List (String × List ℚ)),
      groupsHaveKey (dictAppend gs b (fun inner => insertRow rx inner rs) []) key ↔
        groupsHaveKey gs key ∨ (keepKey rx key = true ∧ ∃ v, (key, v) ∈ rs) := by
  intro gs
  induction gs with
  | nil =>
    rw [show dictAppend ([] : List (Int × List (String × List ℚ))) b
      (fun inner => insertRow rx inner rs) [] = [(b, insertRow rx [] rs)] from rfl]
    rw [groupsHaveKey_cons]
    rw [show ((b, insertRow rx [] rs).2) = insertRow rx [] rs from rfl]
    rw [hasKeyVals_insertRow]
    constructor
    · rintro ((h | h) | h)
      · simp [hasKeyVals] at h
      · exact Or.inr h
      · exact absurd h (by rintro ⟨e, he, _⟩; simp at he)
    · rintro (h | h)
      · exact absurd h (by rintro ⟨e, he, _⟩; simp at he)
      · exact Or.inl (Or.inr h)
  | cons e rest ih =>
    obtain ⟨a, inner⟩ := e
    by_cases hab : a = b
    · subst hab
      rw [show dictAppend ((a, inner) :: rest) a (fun i => insertRow rx i rs) [] =
        (a, insertRow rx inner rs) :: rest by simp [dictAppend]]
      rw [groupsHaveKey_cons, groupsHaveKey_cons]
      rw [show ((a, insertRow rx inner rs).2) = insertRow rx inner rs from rfl]
      rw [hasKeyVals_insertRow]
      constructor
      · rintro ((h | h) | h)
        · exact Or.inl (Or.inl h)
        · exact Or.inr h
        · exact Or.inl (Or.inr h)
      · rintro ((h | h) | h)
        · exact Or.inl (Or.inl h)
        · exact Or.inr h
        · exact Or.inl (Or.inr h)
    · rw [show dictAppend ((a, inner) :: rest) b (fun i => insertRow rx i rs) [] =
        (a, inner) :: dictAppend rest b (fun i => insertRow rx i rs) [] by
          simp [dictAppend, hab]]
      rw [groupsHaveKey_cons, groupsHaveKey_cons, ih]
      constructor
      · rintro (h | (h | h))
        · exact Or.inl (Or.inl h)
        · exact Or.inl (Or.inr h)
        · exact Or.inr h
      · rintro ((h | h) | h)
        · exact Or.inl h
        · exact Or.inr (Or.inl h)
        · exact Or.inr (Or.inr h)

theorem keyInRecords_cons (r : RawRecord) (rest : List RawRecord) (key : String) :
    keyInRecords (r :: rest) key ↔ (∃ v, (key, v) ∈ r.readings) ∨ keyInRecords rest key := by
  constructor
  · rintro ⟨r2, hr2, hv⟩
    rcases List.mem_cons.mp hr2 with h1 | h2
    · exact Or.inl (h1 ▸ hv)
    · exact Or.inr ⟨r2, h2, hv⟩
  · rintro (h | ⟨r2, hr2, hv⟩)
    · exact ⟨r, List.mem_cons_self _ _, h⟩
    · exact ⟨r2, List.mem_cons_of_mem _ hr2, hv⟩

theorem groupsHaveKey_bucketGroupsAux (rx : Option Rx) (p : Int) (key : String) :
    ∀ (rows : List RawRecord) (acc : List (Int × List (String × List ℚ))),
      groupsHaveKey (bucketGroupsAux rx p acc rows) key ↔
        groupsHaveKey acc key ∨ (keepKey rx key = true ∧ keyInRecords rows key) := by
  intro rows
  induction rows with
  | nil =>
    intro acc
    rw [show bucketGroupsAux rx p acc [] = acc from rfl]
    constructor
    · exact Or.inl
    · rintro (h | ⟨_, hk⟩)
      · exact h
      · exact absurd hk (by rintro ⟨r, hr, _⟩; simp at hr)
  | cons row rest ih =>
    intro acc
    rw [show bucketGroupsAux rx p acc (row :: rest) =
      bucketGroupsAux rx p (dictAppend acc (floor_timestamp row.time_received p)
        (fun inner => insertRow rx inner row.readings) []) rest from rfl]
    rw [ih, groupsHaveKey_dictAppend, keyInRecords_cons]
    constructor
    · rintro ((h | ⟨hk, hv⟩) | ⟨hk, hrest⟩)
      · exact Or.inl h
      · exact Or.inr ⟨hk, Or.inl hv⟩
      · exact Or.inr ⟨hk, Or.inr hrest⟩
    · rintro (h | ⟨hk, (hv | hrest)⟩)
      · exact Or.inl (Or.inl h)
      · exact Or.inl (Or.inr ⟨hk, hv⟩)
      · exact Or.inr ⟨hk, hrest⟩

theorem keyInRecords_sortRecs (l : List RawRecord) (key : String) :
    keyInRecords (sortRecs l) key ↔ keyInRecords l key := by
  unfold keyInRecords
  constructor
  · rintro ⟨r, hr, hv⟩
    exact ⟨r, (sortRecs_perm l).mem_iff.mp hr, hv⟩
  · rintro ⟨r, hr, hv⟩
    exact ⟨r, (sortRecs_perm l).mem_iff.mpr hr, hv⟩

theorem keyInRecords_map_agg (m : String) (gs : List (Int × List (String × List ℚ)))
    (key : String) :
    keyInRecords (gs.map (fun g =>
      { time_received := g.1
        readings := g.2.map (fun kv => (kv.1, aggValue m kv.2)) })) key ↔
      groupsHaveKey gs key := by
  constructor
  · rintro ⟨row, hrow, v, hv⟩
    obtain ⟨g, hg, hrow2⟩ := List.mem_map.mp hrow
    subst hrow2
    simp only at hv
    obtain ⟨kv, hkv, hpair⟩ := List.mem_map.mp hv
    have hk : kv.1 = key := (congrArg Prod.fst hpair).symm ▸ rfl
    refine ⟨g, hg, kv.2, ?_⟩
    rw [← hk]
    exact hkv
  · rintro ⟨g, hg, vs, hvs⟩
    refine ⟨{ time_received := g.1
              readings := g.2.map (fun kv => (kv.1, aggValue m kv.2)) },
      List.mem_map_of_mem _ hg, aggValue m vs, ?_⟩
    simp only
    exact List.mem_map_of_mem (fun kv => (kv.1, aggValue m kv.2)) hvs

theorem keyInRecords_bucketData (data : List RawRecord) (p : Int) (m : String)
    (rxo : Option Rx) (key : String) :
    keyInRecords (bucketData data p m rxo) key ↔
      keyInRecords data key ∧ keepKey rxo key = true := by
  unfold bucketData
  rw [keyInRecords_sortRecs, keyInRecords_map_agg]
  rw [show bucketGroups rxo p data = bucketGroupsAux rxo p [] data from rfl]
  rw [groupsHaveKey_bucketGroupsAux]
  constructor
  · rintro (h | ⟨hk, hin⟩)
    · exact absurd h (by rintro ⟨e, he, _⟩; simp at he)
    · exact ⟨hin, hk⟩
  · rintro ⟨hin, hk⟩
    exact Or.inr ⟨hk, hin⟩

theorem rxMatch_iff_start (r : Rx) :
    ∀ s : List Char, rxMatch r s = true ↔
      ∃ pre suf, pre ++ suf = s ∧ rxExact r pre = true := by
  intro s
  induction s generalizing r with
  | nil =>
    constructor
    · intro h
      exact ⟨[], [], rfl, h⟩
    · rintro ⟨pre, suf, heq, hex⟩
      obtain ⟨rfl, rfl⟩ := List.append_eq_nil.mp heq
      exact hex
  | cons c rest ih =>
    rw [show rxMatch r (c :: rest) = (rxNullable r || rxMatch (rxDeriv r c) rest) from rfl]
    rw [Bool.or_eq_true]
    constructor
    · rintro (h | h)
      · exact ⟨[], c :: rest, rfl, h⟩
      · obtain ⟨pre, suf, heq, hex⟩ := (ih (rxDeriv r c)).mp h
        exact ⟨c :: pre, suf, by rw [List.cons_append, heq], hex⟩
    · rintro ⟨pre, suf, heq, hex⟩
      cases pre with
      | nil =>
        exact Or.inl hex
      | cons c2 pre2 =>
        rw [List.cons_append] at heq
        injection heq with h1 h2
        subst h1
        exact Or.inr ((ih (rxDeriv r c2)).mpr ⟨pre2, suf, h2, hex⟩)

/-- C7: a field name appears in the aggregated output exactly when it
appears in some input reading and (the key filter being present) the
regex matches anchored at position 0 — the anchored match accepts
exactly the strings with a prefix in the language of the pattern;
with the deployed filter `.*_raw`, `y_calibrated` is excluded and
`temp_raw` is included. -/
theorem key_filter_anchored_match :
    ∀ (data : List RawRecord) (p : Int) (method : String) (rx : Rx) (key : String),
      (keyInRecords (bucketData data p method (some rx)) key ↔
        keyInRecords data key ∧ rxMatch rx key.data = true)
      ∧ (keyInRecords (bucketData data p method none) key ↔ keyInRecords data key)
      ∧ (rxMatch rx key.data = true ↔
          ∃ pre suf, pre ++ suf = key.data ∧ rxExact rx pre = true)
      ∧ rxMatch dotStarRaw "y_calibrated".data = false
      ∧ rxMatch dotStarRaw "temp_raw".data = true := by
  intro data p method rx key
  refine ⟨?_, ?_, rxMatch_iff_start rx key.data, by decide, by decide⟩
  · rw [keyInRecords_bucketData]
    rw [show keepKey (some rx) key = rxMatch rx key.data from rfl]
  · rw [keyInRecords_bucketData]
    rw [show keepKey none key = true from rfl]
    simp

/-! ## The repaired archive goes to the replaced path, never the input -/

theorem listStartsWith_length_le [DecidableEq α] :
    ∀ (pat s : List α), listStartsWith pat s = true → pat.length ≤ s.length := by
  intro pat
  induction pat with
  | nil => intro s _; simp
  | cons p ps ih =>
    intro s h
    cases s with
    | nil => simp [listStartsWith] at h
    | cons c cs =>
      rw [show listStartsWith (p :: ps) (c :: cs) = (decide (p = c) && listStartsWith ps cs)
        from rfl, Bool.and_eq_true] at h
      have := ih cs h.2
      simp only [List.length_cons]
      omega

theorem listStartsWith_append [DecidableEq α] :
    ∀ (pat b : List α), listStartsWith pat (pat ++ b) = true := by
  intro pat
  induction pat with
  | nil => intro b; rfl
  | cons p ps ih =>
    intro b
    rw [List.cons_append]
    rw [show listStartsWith (p :: ps) (p :: (ps ++ b)) =
      (decide (p = p) && listStartsWith ps (ps ++ b)) from rfl]
    simp [ih b]

theorem replaceAll_length_ge (pat rep : List Char) (hlen : pat.length ≤ rep.length) :
    ∀ (N : Nat) (s : List Char), s.length ≤ N →
      s.length ≤ (replaceAll pat rep s).length := by
  intro N
  induction N with
  | zero =>
    intro s hs
    have : s = [] := List.length_eq_zero.mp (Nat.le_zero.mp hs)
    subst this
    simp [replaceAll]
  | succ N ih =>
    intro s hs
    cases s with
    | nil => simp [replaceAll]
    | cons c rest =>
      rw [replaceAll]
      split_ifs with h
      · obtain ⟨hpat, hstart⟩ := h
        have hple : pat.length ≤ (c :: rest).length := listStartsWith_length_le pat _ hstart
        have hp1 : 1 ≤ pat.length := by
          cases pat with
          | nil => exact absurd rfl hpat
          | cons a b => simp
        have hdlen : ((c :: rest).drop pat.length).length = (c :: rest).length - pat.length := by
          simp [List.length_drop]
        have hrec := ih ((c :: rest).drop pat.length)
          (by simp only [hdlen]; simp only [List.length_cons] at hs ⊢; omega)
        rw [List.length_append]
        simp only [hdlen] at hrec
        omega
      · have hrec := ih rest (by simp only [List.length_cons] at hs; omega)
        simp only [List.length_cons]
        omega

theorem occursIn_nil_pat (pat : List Char) (h : occursIn pat []) : pat = [] := by
  obtain ⟨a, b, hab⟩ := h
  have := congrArg List.length hab
  simp [List.length_append] at this
  exact List.length_eq_zero.mp (by omega)

theorem replaceAll_length_lt (pat rep : List Char) (hpat : pat ≠ [])
    (hlen : pat.length < rep.length) :
    ∀ (N : Nat) (s : List Char), s.length ≤ N → occursIn pat s →
      s.length < (replaceAll pat rep s).length := by
  intro N
  induction N with
  | zero =>
    intro s hs hocc
    have : s = [] := List.length_eq_zero.mp (Nat.le_zero.mp hs)
    subst this
    exact absurd (occursIn_nil_pat pat hocc) hpat
  | succ N ih =>
    intro s hs hocc
    cases s with
    | nil => exact absurd (occursIn_nil_pat pat hocc) hpat
    | cons c rest =>
      rw [replaceAll]
      split_ifs with h
      · obtain ⟨_, hstart⟩ := h
        have hple : pat.length ≤ (c :: rest).length := listStartsWith_length_le pat _ hstart
        have hdlen : ((c :: rest).drop pat.length).length = (c :: rest).length - pat.length := by
          simp [List.length_drop]
        have hrec := replaceAll_length_ge pat rep (le_of_lt hlen) N ((c :: rest).drop pat.length)
          (by
            simp only [hdlen]
            have hp1 : 1 ≤ pat.length := by
              cases pat with
              | nil => exact absurd rfl hpat
              | cons a b => simp
            simp only [List.length_cons] at hs ⊢
            omega)
        rw [List.length_append]
        simp only [hdlen] at hrec
        omega
      · obtain ⟨a, b, hab⟩ := hocc
        cases a with
        | nil =>
          exfalso
          apply h
          refine ⟨hpat, ?_⟩
          simp only [List.nil_append] at hab
          rw [hab]
          exact listStartsWith_append pat b
        | cons c2 a2 =>
          rw [List.cons_append, List.cons_append] at hab
          injection hab with h1 h2
          have hoccrest : occursIn pat rest := ⟨a2, b, h2⟩
          have hrec := ih rest (by simp only [List.length_cons] at hs; omega) hoccrest
          simp only [List.length_cons]
          omega

/-- C10: the repair never writes to the input archive path: the output
path is the `_final`-replaced path, which differs from any `_wip.xlsx`
input path, every path other than the output path keeps its previous
contents, and a missing input aborts with no write at all. -/
theorem repair_preserves_input_file :
    ∀ (n : Nat) (st : String → Option Package) (wip : String),
      occursIn "_wip.xlsx".data wip.data →
      finalPathOf wip ≠ wip
      ∧ (fixOnStore n st wip).1 wip = st wip
      ∧ (∀ k, k ≠ finalPathOf wip → (fixOnStore n st wip).1 k = st k)
      ∧ (st wip = none → (fixOnStore n st wip).1 = st ∧ (fixOnStore n st wip).2 = false) := by
  intro n st wip hocc
  have hne : finalPathOf wip ≠ wip := by
    intro hc
    have hdata : (finalPathOf wip).data = wip.data := congrArg String.data hc
    have hlt : wip.data.length <
        (replaceAll "_wip.xlsx".data "_final.xlsx".data wip.data).length :=
      replaceAll_length_lt _ _ (by decide) (by decide) wip.data.length wip.data
        (le_refl _) hocc
    rw [show (finalPathOf wip).data =
      replaceAll "_wip.xlsx".data "_final.xlsx".data wip.data from rfl] at hdata
    rw [hdata] at hlt
    omega
  refine ⟨hne, ?_, ?_, ?_⟩
  · unfold fixOnStore
    cases hst : st wip with
    | none => exact hst
    | some pkg =>
      simp only
      rw [if_neg (fun hc => hne hc.symm), hst]
  · intro k hk
    unfold fixOnStore
    cases hst : st wip with
    | none => rfl
    | some pkg =>
      simp only
      rw [if_neg hk]
  · intro hst
    unfold fixOnStore
    rw [hst]
    exact ⟨rfl, rfl⟩

/-- Witness for C10 at a concrete WIP path and store. -/
theorem repair_preserves_input_file_witness :
    finalPathOf "report_wip.xlsx" ≠ "report_wip.xlsx"
    ∧ (fixOnStore 3 (fun k => if k = "report_wip.xlsx" then
        some (Package.mk []) else none) "report_wip.xlsx").1 "report_wip.xlsx" =
      (fun k => if k = "report_wip.xlsx" then some (Package.mk []) else none)
        "report_wip.xlsx" := by
  have h := repair_preserves_input_file 3
    (fun k => if k = "report_wip.xlsx" then some (Package.mk []) else none)
    "report_wip.xlsx" ⟨"report".data, [], by decide⟩
  exact ⟨h.1, h.2.1⟩
